import Mathlib

set_option maxRecDepth 1000000

/-!
Verification of the zpath geospatial library (waypoints, geohash codec,
prefix-trie spatial index, ring-expansion KNN search, A* route planner).

Shallow embedding conventions:
* Rust `f32` coordinates and distances are modelled by `ℚ`.  The Haversine
  distance `Waypoint::get_distance_to` (trigonometric, floating point) is
  abstracted as an explicit distance-function parameter `d`; theorems that
  depend on its geometric properties (non-negativity, `d w w = 0`, the
  triangle inequality — exactly the facts the spec's admissibility argument
  invokes) take them as hypotheses.  `dL1` is a concrete computable distance
  function used to instantiate witnesses.
* Rust `String` geohashes are `List Char`; `HashMap<char, Trie>` children are
  association lists; `HashSet<usize>` visited sets are `List Nat`;
  `HashMap<usize, _>` score maps in A* are functions `Nat → Option _`
  (lookup-only maps whose iteration order is never observed).
* `BinaryHeap` in the KNN search is only ever converted to a sorted vector,
  so it is modelled as a plain list that gets sorted at the end; in A* the
  heap is modelled as a list with minimum-extraction (`popMin`), which pops
  an entry of minimal f-score just like the reversed-`Ord` `BinaryHeap`.
* Unbounded `while` loops (the KNN ring expansion, the A* main loop, the
  path reconstruction loop) take a fuel argument; running out of fuel is the
  distinguished result `outOfFuel`.  A Rust panic (`unwrap` on `None`,
  out-of-bounds indexing) is a distinguished error result, with the
  `get_waypoint_index(..).unwrap()` panic tracked separately (`unwrapPanic`)
  from all other panics (`panicked`).
-/

namespace ZPath

/-- Connection between waypoints: a distance and a target waypoint index
(src/lib.rs `struct Connection`). -/
structure Connection where
  distance : ℚ
  waypoint_index : Nat
deriving DecidableEq

/-- Geospatial waypoint (src/lib.rs `struct Waypoint`); `lat`/`lon` are the
`f32` coordinates modelled as `ℚ`. -/
structure Waypoint where
  lat : ℚ
  lon : ℚ
  label : String
  geohash : List Char
  connections : List Connection
deriving DecidableEq

instance : Inhabited Waypoint := ⟨⟨0, 0, "", [], []⟩⟩

/-- Trie node for geohash indexing (src/lib.rs `struct Trie`): an optional
waypoint index and children keyed by character (the `HashMap` is modelled as
an association list). -/
inductive Trie where
  | mk (waypoint_index : Option Nat) (children : List (Char × Trie))

namespace Trie

/-- The stored waypoint index of a node. -/
def value : Trie → Option Nat
  | .mk v _ => v

/-- The child list of a node. -/
def children : Trie → List (Char × Trie)
  | .mk _ cs => cs

/-- `Trie::new()`: empty node. -/
def new : Trie := .mk none []

/-- First child bound to character `c` (the `HashMap` lookup). -/
def findChild (cs : List (Char × Trie)) (c : Char) : Option Trie :=
  match cs with
  | [] => none
  | (c0, t0) :: rest => if c0 = c then some t0 else findChild rest c

/-- Rebind character `c` to `t` in a child list (replace the first binding,
append if absent) — the effect of `children.entry(c).or_insert(..)` followed
by mutation of that entry. -/
def updateChild (cs : List (Char × Trie)) (c : Char) (t : Trie) :
    List (Char × Trie) :=
  match cs with
  | [] => [(c, t)]
  | (c0, t0) :: rest =>
      if c0 = c then (c, t) :: rest else (c0, t0) :: updateChild rest c t

/-- `Trie::insert`: walk/create a node per character, set the index on the
terminal node (src/lib.rs lines 209-217). -/
def insert : List Char → Nat → Trie → Trie
  | [], i, .mk _ cs => .mk (some i) cs
  | c :: rest, i, .mk v cs =>
      .mk v (updateChild cs c (insert rest i ((findChild cs c).getD Trie.new)))

mutual

/-- `Trie::collect_waypoints_recursive` (src/lib.rs lines 253-261): every
waypoint index stored in the subtree, node value first, then children in
order. -/
def collect : Trie → List Nat
  | .mk v cs => v.toList ++ collectGo cs

/-- `collect` over a child list. -/
def collectGo : List (Char × Trie) → List Nat
  | [] => []
  | (_, t) :: rest => collect t ++ collectGo rest

end

/-- `Trie::get_all_with_prefix` (src/lib.rs lines 229-243): walk the trie by
the characters of the query; on a missing child return `[]`, otherwise
collect the whole subtree. -/
def getAllWithPfx (t : Trie) : List Char → List Nat
  | [] => t.collect
  | c :: rest =>
      match findChild t.children c with
      | some child => child.getAllWithPfx rest
      | none => []

end Trie

/-! ## Geohash codec (src/geohash.rs) -/

/-- Compass direction for `get_adjacent_cell`. -/
inductive Direction where
  | north | east | south | west
deriving DecidableEq

/-- `BASE_32GHS`: the geohash base-32 alphabet. -/
def base32ghs : List Char := "0123456789bcdefghjkmnpqrstuvwxyz".toList

/-- `BORDERS_A`. -/
def bordersA : List Char := "prxz".toList
/-- `BORDERS_B`. -/
def bordersB : List Char := "bcfguvyz".toList
/-- `BORDERS_C`. -/
def bordersC : List Char := "028b".toList
/-- `BORDERS_D`. -/
def bordersD : List Char := "0145hjnp".toList

/-- `NEIGHBORS_A`. -/
def neighborsA : List Char := "p0r21436x8zb9dcf5h7kjnmqesgutwvy".toList
/-- `NEIGHBORS_B`. -/
def neighborsB : List Char := "bc01fg45238967deuvhjyznpkmstqrwx".toList
/-- `NEIGHBORS_C`. -/
def neighborsC : List Char := "14365h7k9dcfesgujnmqp0r2twvyx8zb".toList
/-- `NEIGHBORS_D`. -/
def neighborsD : List Char := "238967debc01fg45kmstqrwxuvhjyznp".toList

/-- The neighbor/border lookup-table pair selected by `geohash.len() % 2`
and the direction (src/geohash.rs lines 146-159). -/
def tablesFor (parity : Nat) (dir : Direction) : List Char × List Char :=
  match parity, dir with
  | 0, .north => (neighborsA, bordersA)
  | 0, .east => (neighborsB, bordersB)
  | 0, .south => (neighborsC, bordersC)
  | 0, .west => (neighborsD, bordersD)
  | _, .north => (neighborsB, bordersB)
  | _, .east => (neighborsA, bordersA)
  | _, .south => (neighborsD, bordersD)
  | _, .west => (neighborsC, bordersC)

/-- State of the `encode` loop: the shrinking coordinate bounds, the 5-bit
accumulator, the index of the bit being assigned, the axis toggle and the
output so far. -/
structure EncState where
  latMin : ℚ
  latMax : ℚ
  lonMin : ℚ
  lonMax : ℚ
  bits : Nat
  bit : Nat
  lonBit : Bool
  out : List Char

/-- One iteration of the `encode` while-loop (src/geohash.rs lines 73-109):
assign one longitude or latitude bit, and emit a base-32 character every
five bits. -/
def encodeStep (lat lon : ℚ) (s : EncState) : EncState :=
  let s1 :=
    if s.lonBit then
      let midpoint := (s.lonMin + s.lonMax) / 2
      if lon > midpoint then
        { s with bits := s.bits ||| (1 <<< (4 - s.bit)), lonMin := midpoint }
      else
        { s with lonMax := midpoint }
    else
      let midpoint := (s.latMin + s.latMax) / 2
      if lat > midpoint then
        { s with bits := s.bits ||| (1 <<< (4 - s.bit)), latMin := midpoint }
      else
        { s with latMax := midpoint }
  let s2 :=
    if s1.bit = 4 then
      { s1 with out := s1.out ++ [base32ghs.getD s1.bits '0'], bits := 0, bit := 0 }
    else
      { s1 with bit := s1.bit + 1 }
  { s2 with lonBit := !s2.lonBit }

/-- `geohash::encode` (src/geohash.rs lines 61-112): the while-loop runs one
iteration per bit, i.e. exactly `5 * precision` iterations until the output
reaches the requested length. -/
def encode (lat lon : ℚ) (precision : Nat) : List Char :=
  ((List.range (5 * precision)).foldl (fun s _ => encodeStep lat lon s)
    ⟨-90, 90, -180, 180, 0, 0, true, []⟩).out

/-- `geohash::get_adjacent_cell` (src/geohash.rs lines 136-173) on the
REVERSED geohash, so that stripping the last character is structural
recursion: the head is the last character, the tail is the (reversed) parent.
The table parity is the length of the unreversed geohash modulo 2.  `none`
models the `position(..).unwrap()` panic on a character outside the lookup
table. -/
def adjRev (dir : Direction) : List Char → Option (List Char)
  | [] => some []
  | lastChar :: revPar =>
      let tabs := tablesFor ((revPar.length + 1) % 2) dir
      let parentStep : Option (List Char) :=
        if lastChar ∈ tabs.2 ∧ revPar ≠ [] then adjRev dir revPar
        else some revPar
      match parentStep with
      | none => none
      | some p1 =>
          match tabs.1.findIdx? (fun c => c = lastChar) with
          | none => none
          | some idx => some (base32ghs.getD idx '0' :: p1)

/-- `geohash::get_adjacent_cell` (src/geohash.rs lines 136-173): strip the
last character; if it lies on the border for the chosen direction and the
parent is nonempty, first step the parent in the same direction; then map
the last character through the neighbor table into the base-32 alphabet. -/
def get_adjacent_cell (dir : Direction) (g : List Char) : Option (List Char) :=
  (adjRev dir g.reverse).map List.reverse

/-- `geohash::get_surrounding_cells` (src/geohash.rs lines 195-217): the four
cardinal neighbors plus, for North and South, the East and West neighbors of
that neighbor, pushed in source order `[NE, NW, N, E, SE, SW, S, W]`.
`none` models a panic in any of the adjacency computations. -/
def get_surrounding_cells (g : List Char) : Option (List (List Char)) := do
  let n ← get_adjacent_cell .north g
  let ne ← get_adjacent_cell .east n
  let nw ← get_adjacent_cell .west n
  let e ← get_adjacent_cell .east g
  let s ← get_adjacent_cell .south g
  let se ← get_adjacent_cell .east s
  let sw ← get_adjacent_cell .west s
  let w ← get_adjacent_cell .west g
  pure [ne, nw, n, e, se, sw, s, w]

/-! ## Label generation (src/lib.rs `Waypoint::generate_label`) -/

/-- The `while total_amt > 26` loop of `generate_label` (src/lib.rs lines
116-121), with an explicit structural bound on the number of divisions; the
loop variable strictly decreases under `/ 26`, so any `fuel ≥ total`
over-approximates the iteration count. -/
def labelLenAux : Nat → Nat → Nat
  | 0, _ => 1
  | fuel + 1, total => if total > 26 then labelLenAux fuel (total / 26) + 1 else 1

/-- Number of label characters computed by the `while total_amt > 26` loop in
`generate_label`. -/
def labelLen (total : Nat) : Nat := labelLenAux total total

/-- The digit-emitting loop of `generate_label` (src/lib.rs lines 123-128):
`len` characters, least significant first, each `(n % 26 + b'A') as char`. -/
def labelDigits : Nat → Nat → List Char
  | 0, _ => []
  | len + 1, n => Char.ofNat (n % 26 + 65) :: labelDigits len (n / 26)

/-- `Waypoint::generate_label` (src/lib.rs lines 114-131): emit
`labelLen total` base-26 digits of `n` and reverse them. -/
def generate_label (n total : Nat) : String :=
  String.mk (labelDigits (labelLen total) n).reverse

/-! ## Sorting connections by distance

Both `get_knn_naive` (`sort_by` on `partial_cmp` of distances) and
`get_knn_geohash` (`BinaryHeap::into_sorted_vec` under the distance `Ord`)
produce an ascending-by-distance permutation of their candidates; they are
modelled by a structural insertion sort (tie order among equal distances is
unspecified in the heap case and irrelevant to every property below). -/

/-- Comparison of connections by distance (the `Ord` impl / `sort_by`
comparator on `partial_cmp` of distances). -/
def connLE (a b : Connection) : Prop := a.distance ≤ b.distance

instance : DecidableRel connLE := fun a b =>
  inferInstanceAs (Decidable (a.distance ≤ b.distance))

instance : IsTotal Connection connLE := ⟨fun a b => le_total a.distance b.distance⟩

instance : IsTrans Connection connLE := ⟨fun _ _ _ => le_trans⟩

/-- Sort a connection list ascending by distance. -/
def sortByDistance (l : List Connection) : List Connection := l.insertionSort connLE

/-! ## Dataset (src/lib.rs `struct Dataset`) -/

/-- A dataset of waypoints with its geohash trie index. -/
structure Dataset where
  waypoints : List Waypoint
  geohash_index : Trie

namespace Dataset

/-- The waypoint stored at index `i` (total version used in specifications;
the embedded operations themselves use the panicking `[i]?` lookup). -/
def wpAt (ds : Dataset) (i : Nat) : Waypoint :=
  ds.waypoints.getD i default

/-- `Dataset::get_waypoint_index` (src/lib.rs lines 416-420): position of the
first waypoint with a matching label. -/
def get_waypoint_index (ds : Dataset) (w : Waypoint) : Option Nat :=
  ds.waypoints.findIdx? (fun x => x.label = w.label)

/-- `Dataset::search_geohash` (src/lib.rs lines 448-450). -/
def search_geohash (ds : Dataset) (g : List Char) : List Nat :=
  ds.geohash_index.getAllWithPfx g

/-- `Dataset::get_knn_naive` (src/lib.rs lines 484-499): distance to every
other waypoint (skipping label-equal ones), sorted ascending by distance,
truncated to `k`.  `d` abstracts the f32 Haversine `get_distance_to`. -/
def get_knn_naive (d : Waypoint → Waypoint → ℚ) (ds : Dataset)
    (target : Waypoint) (k : Nat) : List Connection :=
  let nearest := (ds.waypoints.enum.filterMap fun p =>
    if target.label ≠ p.2.label then
      some { distance := d target p.2, waypoint_index := p.1 }
    else none)
  (sortByDistance nearest).take k

end Dataset

/-- Result of the fuelled ring-expansion KNN search: normal completion, a
non-terminating run truncated by fuel, the `get_waypoint_index(..).unwrap()`
panic, or any other panic (out-of-bounds indexing, adjacency-table panic). -/
inductive KnnResult where
  | ok (neighbors : List Connection)
  | outOfFuel
  | unwrapPanic
  | panicked
deriving DecidableEq

namespace Dataset

/-- Body of `if visited.insert(neighbor_index) { min_heap.push(..) }` inside
`get_knn_geohash`: skip already-visited indices, otherwise mark visited and
record a candidate (`none` models the `self.waypoints[neighbor_index]`
out-of-bounds panic). -/
def knnVisit (d : Waypoint → Waypoint → ℚ) (ds : Dataset) (w : Waypoint)
    (st : List Connection × List Nat) (idx : Nat) :
    Option (List Connection × List Nat) :=
  if idx ∈ st.2 then some st
  else
    match ds.waypoints[idx]? with
    | none => none
    | some nb =>
        some ({ distance := d w nb, waypoint_index := idx } :: st.1, idx :: st.2)

/-- Visit a list of candidate indices in order. -/
def knnVisitAll (d : Waypoint → Waypoint → ℚ) (ds : Dataset) (w : Waypoint) :
    List Nat → List Connection × List Nat → Option (List Connection × List Nat)
  | [], st => some st
  | i :: rest, st =>
      match knnVisit d ds w st i with
      | none => none
      | some st1 => knnVisitAll d ds w rest st1

/-- Visit the candidate indices of a list of geohash cells in order. -/
def visitCells (d : Waypoint → Waypoint → ℚ) (ds : Dataset) (w : Waypoint) :
    List (List Char) → List Connection × List Nat →
    Option (List Connection × List Nat)
  | [], st => some st
  | cell :: rest, st =>
      match knnVisitAll d ds w (ds.search_geohash cell) st with
      | none => none
      | some st1 => visitCells d ds w rest st1

/-- The boundary pass and final sort of `get_knn_geohash` (src/lib.rs lines
552-567): visit the 8 surrounding cells of the final search key, then sort
ascending and truncate to `k`. -/
def knnFinish (d : Waypoint → Waypoint → ℚ) (ds : Dataset) (w : Waypoint)
    (k : Nat) (key : List Char) (st : List Connection × List Nat) : KnnResult :=
  match get_surrounding_cells key with
  | none => .panicked
  | some cells =>
      match visitCells d ds w cells st with
      | none => .panicked
      | some st1 => .ok ((sortByDistance st1.1).take k)

/-- The `while min_heap.len() < k` ring-expansion loop of `get_knn_geohash`
(src/lib.rs lines 538-550), fuelled: when the heap already holds `k`
candidates the loop exits into the boundary pass regardless of fuel. -/
def knnLoop (d : Waypoint → Waypoint → ℚ) (ds : Dataset) (w : Waypoint)
    (k : Nat) : Nat → List Char → List Connection × List Nat → KnnResult
  | 0, key, st =>
      if st.1.length < k then .outOfFuel
      else knnFinish d ds w k key st
  | fuel + 1, key, st =>
      if st.1.length < k then
        match knnVisitAll d ds w (ds.search_geohash key.dropLast) st with
        | none => .panicked
        | some st1 => knnLoop d ds w k fuel key.dropLast st1
      else knnFinish d ds w k key st

/-- `Dataset::get_knn_geohash` (src/lib.rs lines 532-568). -/
def get_knn_geohash (d : Waypoint → Waypoint → ℚ) (fuel : Nat) (ds : Dataset)
    (w : Waypoint) (k : Nat) : KnnResult :=
  match ds.get_waypoint_index w with
  | none => .unwrapPanic
  | some i => knnLoop d ds w k fuel w.geohash ([], [i])

end Dataset

/-- Result of the fuelled A* search: a found route, the no-route outcome, a
fuel-truncated run, the `get_waypoint_index(..).unwrap()` panic, or any other
panic. -/
inductive RouteResult where
  | route (path : List Nat)
  | noRoute
  | outOfFuel
  | unwrapPanic
  | panicked
deriving DecidableEq

/-- State of the A* main loop: the open set (f-score/index pairs), the
predecessor map and the g-score map. -/
structure AState where
  openSet : List (ℚ × Nat)
  cameFrom : Nat → Option Nat
  gScores : Nat → Option ℚ

/-- The entry of minimal f-score, leftmost among ties (what the reversed-`Ord`
`BinaryHeap::pop` extracts, up to tie order). -/
def minEntry : (ℚ × Nat) → List (ℚ × Nat) → ℚ × Nat
  | e, [] => e
  | e, x :: xs => minEntry (if x.1 < e.1 then x else e) xs

/-- Remove the first occurrence of an entry. -/
def removeOne (x : ℚ × Nat) : List (ℚ × Nat) → List (ℚ × Nat)
  | [] => []
  | y :: ys => if y = x then ys else y :: removeOne x ys

/-- `open_set.pop()`: extract an entry of minimal f-score. -/
def popMin : List (ℚ × Nat) → Option ((ℚ × Nat) × List (ℚ × Nat))
  | [] => none
  | e :: es => some (minEntry e es, removeOne (minEntry e es) (e :: es))

namespace Dataset

/-- One neighbor-relaxation step of A* (src/lib.rs lines 687-704): read the
current g-score, and if the neighbor is fresh or strictly improved, record
predecessor and g-score and push it with f-score `g + h`.  `none` models the
`g_scores[&current_index]` or `self.waypoints[neighbor_index]` panic. -/
def relaxStep (d : Waypoint → Waypoint → ℚ) (ds : Dataset) (goal : Waypoint)
    (u : Nat) (s : AState) (c : Connection) : Option AState :=
  match s.gScores u with
  | none => none
  | some gu =>
      let v := c.waypoint_index
      let gnew := gu + c.distance
      let improves :=
        match s.gScores v with
        | none => true
        | some gv => gnew < gv
      if improves then
        match ds.waypoints[v]? with
        | none => none
        | some wv =>
            some { openSet := (gnew + d wv goal, v) :: s.openSet,
                   cameFrom := fun x => if x = v then some u else s.cameFrom x,
                   gScores := fun x => if x = v then some gnew else s.gScores x }
      else some s

/-- Relax every outgoing connection of the popped waypoint, in order. -/
def relaxAll (d : Waypoint → Waypoint → ℚ) (ds : Dataset) (goal : Waypoint)
    (u : Nat) : List Connection → AState → Option AState
  | [], s => some s
  | c :: rest, s =>
      match relaxStep d ds goal u s c with
      | none => none
      | some s1 => relaxAll d ds goal u rest s1

/-- The `while let Some(&previous_index) = came_from.get(&current)` path
reconstruction loop (src/lib.rs lines 674-683), fuelled; returns the
reversed accumulated path. -/
def reconstruct (cameFrom : Nat → Option Nat) :
    Nat → Nat → List Nat → Option (List Nat)
  | 0, _, _ => none
  | fuel + 1, cur, acc =>
      match cameFrom cur with
      | none => some acc.reverse
      | some prev => reconstruct cameFrom fuel prev (acc ++ [prev])

/-- The `while let Some(node) = open_set.pop()` main loop of
`get_shortest_route` (src/lib.rs lines 668-705), fuelled. -/
def astarLoop (d : Waypoint → Waypoint → ℚ) (ds : Dataset) (goal : Waypoint) :
    Nat → AState → RouteResult
  | 0, _ => .outOfFuel
  | fuel + 1, s =>
      match popMin s.openSet with
      | none => .noRoute
      | some (e, rest) =>
          match ds.waypoints[e.2]? with
          | none => .panicked
          | some wu =>
              if wu.label = goal.label then
                match reconstruct s.cameFrom (ds.waypoints.length + 1) e.2 [e.2] with
                | none => .outOfFuel
                | some p => .route p
              else
                match relaxAll d ds goal e.2 wu.connections { s with openSet := rest } with
                | none => .panicked
                | some s1 => astarLoop d ds goal fuel s1

/-- `Dataset::get_shortest_route` (src/lib.rs lines 654-708): resolve the
start index (panicking if its label is absent), seed the open set and
g-scores, and run the A* loop. -/
def get_shortest_route (d : Waypoint → Waypoint → ℚ) (fuel : Nat)
    (ds : Dataset) (start goal : Waypoint) : RouteResult :=
  match ds.get_waypoint_index start with
  | none => .unwrapPanic
  | some si =>
      astarLoop d ds goal fuel
        { openSet := [(0, si)],
          cameFrom := fun _ => none,
          gScores := fun x => if x = si then some 0 else none }

/-! ### Graph-builder operations -/

/-- Replace the waypoint at index `i` using `f`; `none` models the
`self.waypoints[i]` panic on an out-of-bounds index. -/
def modifyWaypoint (ds : Dataset) (i : Nat) (f : Waypoint → Waypoint) :
    Option Dataset :=
  match ds.waypoints[i]? with
  | none => none
  | some w => some { ds with waypoints := ds.waypoints.set i (f w) }

/-- The per-index body of `assign_all_connections_geohash` over a worklist of
indices (src/lib.rs lines 587-592): run the geohash KNN for waypoint `i` and
append the result to its connection list. -/
def assignLoop (d : Waypoint → Waypoint → ℚ) (fuel : Nat) (amt : Nat) :
    List Nat → Dataset → Option Dataset
  | [], ds => some ds
  | i :: rest, ds =>
      match ds.waypoints[i]? with
      | none => none
      | some wi =>
          match ds.get_knn_geohash d fuel wi amt with
          | .ok conns =>
              match ds.modifyWaypoint i
                  (fun w => { w with connections := w.connections ++ conns }) with
              | none => none
              | some ds1 => assignLoop d fuel amt rest ds1
          | _ => none

/-- `Dataset::assign_all_connections_geohash` (src/lib.rs lines 587-592),
fuelled through the KNN searches; `none` models a panicking or
non-terminating KNN call. -/
def assign_all_connections_geohash (d : Waypoint → Waypoint → ℚ) (fuel : Nat)
    (ds : Dataset) (amt : Nat) : Option Dataset :=
  assignLoop d fuel amt (List.range ds.waypoints.length) ds

/-- Push one reciprocal connection back to each KNN neighbor of a newly
inserted waypoint (src/lib.rs lines 377-384). -/
def pushReciprocal (index : Nat) : List Connection → Dataset → Option Dataset
  | [], ds => some ds
  | c :: rest, ds =>
      match ds.modifyWaypoint c.waypoint_index
          (fun w => { w with connections :=
            w.connections ++ [{ waypoint_index := index, distance := c.distance }] }) with
      | none => none
      | some ds1 => pushReciprocal index rest ds1

/-- The freshly created waypoint of `add_new_waypoint` (src/lib.rs lines
357-366): generated label, computed geohash, empty connection list. -/
def newWaypoint (ds : Dataset) (lat lon : ℚ) : Waypoint :=
  { label := generate_label ds.waypoints.length (ds.waypoints.length + 1),
    lat := lat, lon := lon, geohash := encode lat lon 8, connections := [] }

/-- The first phase of `add_new_waypoint` (src/lib.rs lines 357-369): insert
the new geohash into the trie and push the new waypoint. -/
def addWaypointBase (ds : Dataset) (lat lon : ℚ) : Dataset :=
  { waypoints := ds.waypoints ++ [newWaypoint ds lat lon],
    geohash_index := ds.geohash_index.insert (encode lat lon 8) ds.waypoints.length }

/-- `Dataset::add_new_waypoint` (src/lib.rs lines 356-390): append a waypoint
with a generated label and computed geohash, insert it into the trie, and —
if waypoint 0 already has connections — wire the new waypoint reciprocally to
its `k` nearest neighbors (`k` = waypoint 0's connection count). -/
def add_new_waypoint (d : Waypoint → Waypoint → ℚ) (fuel : Nat) (ds : Dataset)
    (lat lon : ℚ) : Option (Dataset × Nat) :=
  match (addWaypointBase ds lat lon).waypoints[0]? with
  | none => none
  | some w0 =>
      if w0.connections.length > 0 then
        match (addWaypointBase ds lat lon).get_knn_geohash d fuel
            (newWaypoint ds lat lon) w0.connections.length with
        | .ok conns =>
            match pushReciprocal ds.waypoints.length conns (addWaypointBase ds lat lon) with
            | none => none
            | some ds2 =>
                match ds2.modifyWaypoint ds.waypoints.length
                    (fun wn => { wn with connections := wn.connections ++ conns }) with
                | none => none
                | some ds3 => some (ds3, ds.waypoints.length)
        | _ => none
      else some (addWaypointBase ds lat lon, ds.waypoints.length)

end Dataset

/-! ## Concrete distance function for witnesses -/

/-- Kernel-computable absolute value on `ℚ`. -/
def qabs (q : ℚ) : ℚ := if q < 0 then -q else q

/-- `qabs` agrees with the lattice absolute value. -/
theorem qabs_eq_abs (q : ℚ) : qabs q = |q| := by
  by_cases h : q < 0
  · simp [qabs, h, abs_of_neg]
  · simp [qabs, h, abs_of_nonneg (not_lt.mp h)]

/-- A concrete computable distance function (taxicab distance on the
coordinates) used to instantiate the abstract distance parameter in
witnesses; it satisfies all the metric hypotheses the theorems assume of the
Haversine distance. -/
def dL1 (a b : Waypoint) : ℚ := qabs (a.lat - b.lat) + qabs (a.lon - b.lon)

/-- `dL1` is non-negative. -/
theorem dL1_nonneg (a b : Waypoint) : 0 ≤ dL1 a b := by
  rw [dL1, qabs_eq_abs, qabs_eq_abs]
  exact add_nonneg (abs_nonneg _) (abs_nonneg _)

/-- `dL1` of equal-coordinate waypoints is zero. -/
theorem dL1_self (a b : Waypoint) (hlat : a.lat = b.lat) (hlon : a.lon = b.lon) :
    dL1 a b = 0 := by
  simp [dL1, qabs_eq_abs, hlat, hlon]

/-- `dL1` satisfies the triangle inequality. -/
theorem dL1_triangle (a b c : Waypoint) : dL1 a c ≤ dL1 a b + dL1 b c := by
  have h1 := abs_sub_le a.lat b.lat c.lat
  have h2 := abs_sub_le a.lon b.lon c.lon
  simp only [dL1, qabs_eq_abs]
  linarith

/-! ## Claim C7: label generation -/

/-- The label-length loop returns 1 for any total of at most 26, independent
of the fuel. -/
theorem labelLenAux_of_le26 (fuel total : Nat) (h : total ≤ 26) :
    labelLenAux fuel total = 1 := by
  cases fuel with
  | zero => rfl
  | succ f => simp [labelLenAux, Nat.not_lt.mpr h]

/-- `labelLen` is 1 for counts of at most 26. -/
theorem labelLen_of_le26 (total : Nat) (h : total ≤ 26) : labelLen total = 1 :=
  labelLenAux_of_le26 total total h

/-- `labelLen` is 2 for counts between 27 and 676. -/
theorem labelLen_of_mid (total : Nat) (h1 : 26 < total) (h2 : total ≤ 676) :
    labelLen total = 2 := by
  obtain ⟨f, rfl⟩ : ∃ f, total = f + 1 := ⟨total - 1, by omega⟩
  have hdiv : (f + 1) / 26 ≤ 26 := by omega
  simp [labelLen, labelLenAux, h1, labelLenAux_of_le26 f _ hdiv]

/-- `labelDigits` emits exactly the requested number of characters. -/
theorem labelDigits_length (L n : Nat) : (labelDigits L n).length = L := by
  induction L generalizing n with
  | zero => rfl
  | succ L ih => simp [labelDigits, ih]

/-- The length of a generated label is the computed `labelLen`. -/
theorem generate_label_length (n total : Nat) :
    (generate_label n total).length = labelLen total := by
  simp [generate_label, String.length, labelDigits_length]

/-- The base-26 digit characters are distinct for distinct digits. -/
theorem digitChar_inj : ∀ r < 26, ∀ s < 26,
    Char.ofNat (r + 65) = Char.ofNat (s + 65) → r = s := by decide

/-- `labelDigits L` is injective on numbers below `26 ^ L`. -/
theorem labelDigits_inj (L : Nat) : ∀ n m : Nat, n < 26 ^ L → m < 26 ^ L →
    labelDigits L n = labelDigits L m → n = m := by
  induction L with
  | zero => intro n m hn hm _; omega
  | succ L ih =>
      intro n m hn hm h
      simp only [labelDigits, List.cons.injEq] at h
      have hmod : n % 26 = m % 26 :=
        digitChar_inj _ (Nat.mod_lt n (by omega)) _ (Nat.mod_lt m (by omega)) h.1
      have hpow : (0:Nat) < 26 ^ L := Nat.pos_pow_of_pos L (by omega)
      have hn26 : n / 26 < 26 ^ L := by
        rw [Nat.div_lt_iff_lt_mul (by omega)]
        calc n < 26 ^ (L + 1) := hn
        _ = 26 ^ L * 26 := by ring
      have hm26 : m / 26 < 26 ^ L := by
        rw [Nat.div_lt_iff_lt_mul (by omega)]
        calc m < 26 ^ (L + 1) := hm
        _ = 26 ^ L * 26 := by ring
      have hdiv : n / 26 = m / 26 := ih _ _ hn26 hm26 h.2
      omega

/-- Counterexample for claim C7 as stated: at `count = 677` the computed
label length is still 2 (the `while total_amt > 26` loop stops because
`677 / 26 = 26`), so the 677 labels cannot all be distinct — indices 0 and
676 both receive the label `AA`. -/
theorem claim7_counterexample :
    generate_label 0 677 = "AA" ∧ generate_label 676 677 = "AA" ∧ (0 : Nat) ≠ 676 := by
  refine ⟨by decide, by decide, by decide⟩

/-- Claim C7 (corrected): labels generated for indices `0 .. count-1` are
pairwise distinct whenever `count ≤ 26 ^ labelLen count` (in particular for
every `count ≤ 676`; the original universal claim fails at `count = 677`),
label length is 1 for counts up to 26 and 2 for counts from 27 to 676, the
labels for `count = 10` are exactly `A`..`J`, and for `count = 30` all labels
have 2 characters and are unique. -/
theorem claim7_generate_label :
    (∀ count : Nat, count ≤ 26 ^ labelLen count →
      ∀ i j : Nat, i < count → j < count → i ≠ j →
        generate_label i count ≠ generate_label j count)
    ∧ (∀ count : Nat, count ≤ 26 → ∀ i : Nat,
        (generate_label i count).length = 1)
    ∧ (∀ count : Nat, 26 < count → count ≤ 676 → ∀ i : Nat,
        (generate_label i count).length = 2)
    ∧ ((List.range 10).map (fun i => generate_label i 10)
        = ["A", "B", "C", "D", "E", "F", "G", "H", "I", "J"])
    ∧ (∀ i j : Nat, i < 30 → j < 30 →
        (generate_label i 30).length = 2 ∧
        (i ≠ j → generate_label i 30 ≠ generate_label j 30)) := by
  have main : ∀ count : Nat, count ≤ 26 ^ labelLen count →
      ∀ i j : Nat, i < count → j < count → i ≠ j →
        generate_label i count ≠ generate_label j count := by
    intro count hcount i j hi hj hne heq
    apply hne
    have h1 : labelDigits (labelLen count) i = labelDigits (labelLen count) j := by
      have := congrArg (fun s : String => s.data.reverse) heq
      simpa [generate_label] using this
    exact labelDigits_inj _ i j (by omega) (by omega) h1
  refine ⟨main, ?_, ?_, by decide, ?_⟩
  · intro count hc i
    rw [generate_label_length, labelLen_of_le26 _ hc]
  · intro count h1 h2 i
    rw [generate_label_length, labelLen_of_mid _ h1 h2]
  · intro i j hi hj
    refine ⟨?_, fun hne => ?_⟩
    · rw [generate_label_length, labelLen_of_mid _ (by omega) (by omega)]
    · exact main 30 (by rw [labelLen_of_mid _ (by omega) (by omega)]; norm_num)
        i j hi hj hne

/-- Witness for claim C7 at concrete inputs: `count = 30` satisfies the
side condition and yields distinct labels for indices 3 and 17. -/
theorem claim7_witness :
    (30 : Nat) ≤ 26 ^ labelLen 30 ∧ generate_label 3 30 ≠ generate_label 17 30 :=
  ⟨by rw [labelLen_of_mid 30 (by omega) (by omega)]; norm_num,
   claim7_generate_label.1 30
     (by rw [labelLen_of_mid 30 (by omega) (by omega)]; norm_num)
     3 17 (by omega) (by omega) (by omega)⟩

/-! ## Claim C5: surrounding geohash cells -/

/-- The last-character transformation performed by `get_adjacent_cell`: look
the character up in the neighbor table for the given parity and direction and
map its position into the base-32 alphabet. -/
def adjChar (p : Nat) (dir : Direction) (c : Char) : Char :=
  base32ghs.getD (((tablesFor p dir).1.findIdx? (fun x => x = c)).getD 0) '0'

/-- The table selection only depends on the parity of the length. -/
theorem tablesFor_succ (k : Nat) (dir : Direction) :
    tablesFor (k + 1) dir = tablesFor 1 dir := by
  cases dir <;> rfl

/-- `adjChar` only depends on the parity of its first argument. -/
theorem adjChar_succ (k : Nat) (dir : Direction) (c : Char) :
    adjChar (k + 1) dir c = adjChar 1 dir c := by
  simp [adjChar, tablesFor_succ]

/-- A successful index search in a list yields a position inside the list. -/
theorem findIdx?_of_mem {c : Char} :
    ∀ l : List Char, c ∈ l →
      ∃ i, l.findIdx? (fun x => x = c) = some i ∧ i < l.length := by
  intro l hl
  induction l with
  | nil => cases hl
  | cons x xs ih =>
      by_cases hx : x = c
      · exact ⟨0, by simp [List.findIdx?_cons, hx], by simp⟩
      · rcases List.mem_cons.mp hl with h | h
        · exact absurd h.symm hx
        · rcases ih h with ⟨i, hi, hlen⟩
          refine ⟨i + 1, ?_, by simpa using Nat.succ_lt_succ hlen⟩
          simp [List.findIdx?_cons, hx, hi]

/-- Every alphabet character occurs in every neighbor lookup table. -/
theorem mem_neighbor_table (p : Nat) (dir : Direction) :
    ∀ c ∈ base32ghs, c ∈ (tablesFor p dir).1 := by
  cases p with
  | zero => cases dir <;> decide
  | succ k => rw [tablesFor_succ]; cases dir <;> decide

/-- `adjChar` maps alphabet characters to alphabet characters. -/
theorem adjChar_mem (p : Nat) (dir : Direction) (c : Char) (hc : c ∈ base32ghs) :
    adjChar p dir c ∈ base32ghs := by
  rcases findIdx?_of_mem _ (mem_neighbor_table p dir c hc) with ⟨i, hi, hlen⟩
  have h32 : i < base32ghs.length := by
    have : (tablesFor p dir).1.length = base32ghs.length := by
      cases p with
      | zero => cases dir <;> decide
      | succ k => rw [tablesFor_succ]; cases dir <;> decide
    omega
  rw [adjChar, hi, Option.getD_some, List.getD_eq_getElem _ _ h32]
  exact List.getElem_mem h32

/-- `adjChar` never maps a character to itself (each adjacent cell has a
different final character). -/
theorem adjChar_ne (p : Nat) (dir : Direction) (c : Char) (hc : c ∈ base32ghs) :
    adjChar p dir c ≠ c := by
  cases p with
  | zero =>
      cases dir
      · exact (by decide : ∀ x ∈ base32ghs, adjChar 0 .north x ≠ x) c hc
      · exact (by decide : ∀ x ∈ base32ghs, adjChar 0 .east x ≠ x) c hc
      · exact (by decide : ∀ x ∈ base32ghs, adjChar 0 .south x ≠ x) c hc
      · exact (by decide : ∀ x ∈ base32ghs, adjChar 0 .west x ≠ x) c hc
  | succ k =>
      rw [adjChar_succ]
      cases dir
      · exact (by decide : ∀ x ∈ base32ghs, adjChar 1 .north x ≠ x) c hc
      · exact (by decide : ∀ x ∈ base32ghs, adjChar 1 .east x ≠ x) c hc
      · exact (by decide : ∀ x ∈ base32ghs, adjChar 1 .south x ≠ x) c hc
      · exact (by decide : ∀ x ∈ base32ghs, adjChar 1 .west x ≠ x) c hc

/-- The diagonal composites (East/West after North/South) never map a
character to itself either. -/
theorem adjChar_comp_ne (p : Nat) (dir1 dir2 : Direction) (c : Char)
    (hc : c ∈ base32ghs)
    (h1 : dir1 = Direction.north ∨ dir1 = Direction.south)
    (h2 : dir2 = Direction.east ∨ dir2 = Direction.west) :
    adjChar p dir2 (adjChar p dir1 c) ≠ c := by
  cases p with
  | zero =>
      rcases h1 with rfl | rfl <;> rcases h2 with rfl | rfl
      · exact (by decide : ∀ x ∈ base32ghs, adjChar 0 .east (adjChar 0 .north x) ≠ x) c hc
      · exact (by decide : ∀ x ∈ base32ghs, adjChar 0 .west (adjChar 0 .north x) ≠ x) c hc
      · exact (by decide : ∀ x ∈ base32ghs, adjChar 0 .east (adjChar 0 .south x) ≠ x) c hc
      · exact (by decide : ∀ x ∈ base32ghs, adjChar 0 .west (adjChar 0 .south x) ≠ x) c hc
  | succ k =>
      rw [adjChar_succ, adjChar_succ]
      rcases h1 with rfl | rfl <;> rcases h2 with rfl | rfl
      · exact (by decide : ∀ x ∈ base32ghs, adjChar 1 .east (adjChar 1 .north x) ≠ x) c hc
      · exact (by decide : ∀ x ∈ base32ghs, adjChar 1 .west (adjChar 1 .north x) ≠ x) c hc
      · exact (by decide : ∀ x ∈ base32ghs, adjChar 1 .east (adjChar 1 .south x) ≠ x) c hc
      · exact (by decide : ∀ x ∈ base32ghs, adjChar 1 .west (adjChar 1 .south x) ≠ x) c hc

/-- Specification of `adjRev` on nonempty alphabet strings: it succeeds,
preserves the length and the alphabet, and its head (the last character of
the unreversed geohash) is `adjChar` of the input's head. -/
theorem adjRev_spec (dir : Direction) :
    ∀ g : List Char, g ≠ [] → (∀ c ∈ g, c ∈ base32ghs) →
      ∃ g1, adjRev dir g = some g1 ∧ g1.length = g.length ∧
        (∀ c ∈ g1, c ∈ base32ghs) ∧
        g1.head? = (g.head?).map (adjChar (g.length % 2) dir) := by
  intro g
  induction g with
  | nil => intro h; exact absurd rfl h
  | cons c rest ih =>
      intro _ halpha
      have hc : c ∈ base32ghs := halpha c (List.mem_cons_self c rest)
      rcases findIdx?_of_mem _ (mem_neighbor_table ((rest.length + 1) % 2) dir c hc)
        with ⟨i, hi, hlen⟩
      have h32 : i < base32ghs.length := by
        have : (tablesFor ((rest.length + 1) % 2) dir).1.length = base32ghs.length := by
          rcases Nat.mod_two_eq_zero_or_one (rest.length + 1) with h | h <;> rw [h]
          · cases dir <;> decide
          · cases dir <;> decide
        omega
      have hchar : base32ghs.getD i '0' = adjChar ((rest.length + 1) % 2) dir c := by
        rw [adjChar, hi, Option.getD_some]
      have hcharMem : base32ghs.getD i '0' ∈ base32ghs := by
        rw [List.getD_eq_getElem _ _ h32]
        exact List.getElem_mem h32
      by_cases hborder : c ∈ (tablesFor ((rest.length + 1) % 2) dir).2 ∧ rest ≠ []
      · rcases ih hborder.2 (fun x hx => halpha x (List.mem_cons_of_mem c hx))
          with ⟨p1, hp1, hp1len, hp1alpha, _⟩
        refine ⟨base32ghs.getD i '0' :: p1, ?_, by simp [hp1len], ?_, ?_⟩
        · simp only [adjRev]
          rw [if_pos hborder, hp1, hi]
        · intro x hx
          rcases List.mem_cons.mp hx with rfl | hx
          · exact hcharMem
          · exact hp1alpha x hx
        · simpa using hchar
      · refine ⟨base32ghs.getD i '0' :: rest, ?_, by simp, ?_, ?_⟩
        · simp only [adjRev]
          rw [if_neg hborder, hi]
        · intro x hx
          rcases List.mem_cons.mp hx with rfl | hx
          · exact hcharMem
          · exact halpha x (List.mem_cons_of_mem c hx)
        · simpa using hchar

/-- Specification of `get_adjacent_cell` on nonempty alphabet geohashes: it
succeeds, preserves length and alphabet, and replaces the last character by
its `adjChar` image. -/
theorem get_adjacent_cell_spec (dir : Direction) (g : List Char) (hg : g ≠ [])
    (halpha : ∀ c ∈ g, c ∈ base32ghs) :
    ∃ g1, get_adjacent_cell dir g = some g1 ∧ g1.length = g.length ∧
      (∀ c ∈ g1, c ∈ base32ghs) ∧
      g1.getLast? = (g.getLast?).map (adjChar (g.length % 2) dir) := by
  have hrev : g.reverse ≠ [] := by simpa using hg
  rcases adjRev_spec dir g.reverse hrev (fun c hc => halpha c (List.mem_reverse.mp hc))
    with ⟨g1, hg1, hg1len, hg1alpha, hg1head⟩
  refine ⟨g1.reverse, ?_, by simpa using hg1len, ?_, ?_⟩
  · rw [get_adjacent_cell, hg1]
    rfl
  · intro c hc
    exact hg1alpha c (List.mem_reverse.mp hc)
  · rw [List.getLast?_reverse, hg1head, List.head?_reverse, List.length_reverse]

/-- Helper for claim C5: a cell whose final character differs from the
original geohash's final character cannot equal the original geohash. -/
theorem ne_of_getLast_adjChar {g g1 : List Char} {f : Char → Char}
    (hlast : g1.getLast? = (g.getLast?).map f)
    (hg : g ≠ [])
    (hne : ∀ c, c ∈ g → f c ≠ c)
    (hmem : g.getLast hg ∈ g) : g1 ≠ g := by
  intro h
  subst h
  rw [List.getLast?_eq_getLast _ hg] at hlast
  simp only [Option.map_some'] at hlast
  exact hne (g1.getLast hg) hmem (Option.some.inj hlast).symm

/-- Counterexample for claim C5 as stated: on the empty string,
`get_surrounding_cells` returns 8 cells but every one of them equals the
input (the adjacency of the empty geohash is the empty geohash), so the
"none equal to g itself" part of the universal claim fails at `g = ""`. -/
theorem claim5_counterexample :
    get_surrounding_cells ([] : List Char) =
      some [[], [], [], [], [], [], [], []] ∧
    ([] : List Char) ∈ [([] : List Char), [], [], [], [], [], [], []] := by
  exact ⟨by decide, by decide⟩

/-- Claim C5 (corrected): for every NONEMPTY geohash string `g` over the
base-32 geohash alphabet, `get_surrounding_cells g` returns exactly 8
geohash strings (4 cardinal neighbors plus the East/West neighbors of the
North and South neighbors), all of length equal to `g`'s length, and none
equal to `g` itself.  (The original claim, quantified over every geohash
string, fails at the empty string.) -/
theorem claim5_surrounding_cells (g : List Char) (hg : g ≠ [])
    (halpha : ∀ c ∈ g, c ∈ base32ghs) :
    ∃ cells, get_surrounding_cells g = some cells ∧ cells.length = 8 ∧
      (∀ x ∈ cells, x.length = g.length) ∧ (∀ x ∈ cells, x ≠ g) := by
  have hlastmem : g.getLast hg ∈ g := List.getLast_mem hg
  -- the four cardinal neighbors
  rcases get_adjacent_cell_spec .north g hg halpha with ⟨cN, hN, hNlen, hNalpha, hNlast⟩
  rcases get_adjacent_cell_spec .east g hg halpha with ⟨cE, hE, hElen, _, hElast⟩
  rcases get_adjacent_cell_spec .south g hg halpha with ⟨cS, hS, hSlen, hSalpha, hSlast⟩
  rcases get_adjacent_cell_spec .west g hg halpha with ⟨cW, hW, hWlen, _, hWlast⟩
  have hNne : cN ≠ [] := by
    intro h; rw [h] at hNlen; exact hg (List.eq_nil_of_length_eq_zero hNlen.symm)
  have hSne : cS ≠ [] := by
    intro h; rw [h] at hSlen; exact hg (List.eq_nil_of_length_eq_zero hSlen.symm)
  -- the four diagonal neighbors
  rcases get_adjacent_cell_spec .east cN hNne hNalpha with ⟨cNE, hNE, hNElen, _, hNElast⟩
  rcases get_adjacent_cell_spec .west cN hNne hNalpha with ⟨cNW, hNW, hNWlen, _, hNWlast⟩
  rcases get_adjacent_cell_spec .east cS hSne hSalpha with ⟨cSE, hSE, hSElen, _, hSElast⟩
  rcases get_adjacent_cell_spec .west cS hSne hSalpha with ⟨cSW, hSW, hSWlen, _, hSWlast⟩
  refine ⟨[cNE, cNW, cN, cE, cSE, cSW, cS, cW], ?_, by simp, ?_, ?_⟩
  · simp [get_surrounding_cells, hN, hE, hS, hW, hNE, hNW, hSE, hSW]
  · intro x hx
    simp only [List.mem_cons, List.not_mem_nil, or_false] at hx
    rcases hx with rfl | rfl | rfl | rfl | rfl | rfl | rfl | rfl <;> omega
  · have hcard : ∀ (dir : Direction) (c1 : List Char),
        c1.getLast? = (g.getLast?).map (adjChar (g.length % 2) dir) → c1 ≠ g := by
      intro dir c1 hlast
      exact ne_of_getLast_adjChar hlast hg
        (fun c hc => adjChar_ne _ dir c (halpha c hc)) hlastmem
    have hdiag : ∀ (dir1 dir2 : Direction) (c1 : List Char),
        dir1 = Direction.north ∨ dir1 = Direction.south →
        dir2 = Direction.east ∨ dir2 = Direction.west →
        c1.getLast? = ((g.getLast?).map (adjChar (g.length % 2) dir1)).map
          (adjChar (g.length % 2) dir2) → c1 ≠ g := by
      intro dir1 dir2 c1 h1 h2 hlast
      rw [Option.map_map] at hlast
      exact ne_of_getLast_adjChar hlast hg
        (fun c hc => adjChar_comp_ne _ dir1 dir2 c (halpha c hc) h1 h2) hlastmem
    intro x hx
    simp only [List.mem_cons, List.not_mem_nil, or_false] at hx
    rcases hx with rfl | rfl | rfl | rfl | rfl | rfl | rfl | rfl
    · exact hdiag .north .east x (Or.inl rfl) (Or.inl rfl)
        (by rw [hNElast, hNlast, hNlen])
    · exact hdiag .north .west x (Or.inl rfl) (Or.inr rfl)
        (by rw [hNWlast, hNlast, hNlen])
    · exact hcard .north x hNlast
    · exact hcard .east x hElast
    · exact hdiag .south .east x (Or.inr rfl) (Or.inl rfl)
        (by rw [hSElast, hSlast, hSlen])
    · exact hdiag .south .west x (Or.inr rfl) (Or.inr rfl)
        (by rw [hSWlast, hSlast, hSlen])
    · exact hcard .south x hSlast
    · exact hcard .west x hWlast

/-- Witness for claim C5 at the documented example geohash `u4pruydq`. -/
theorem claim5_witness :
    ("u4pruydq".toList ≠ ([] : List Char)) ∧
    ∃ cells, get_surrounding_cells "u4pruydq".toList = some cells ∧
      cells.length = 8 ∧ (∀ x ∈ cells, x.length = "u4pruydq".toList.length) ∧
      (∀ x ∈ cells, x ≠ "u4pruydq".toList) :=
  ⟨by decide, claim5_surrounding_cells "u4pruydq".toList (by decide) (by decide)⟩

/-! ## Claim C9: trie insertion overwrites duplicate geohashes -/

namespace Trie

/-- A successful child lookup is a member of the child list. -/
theorem findChild_mem {cs : List (Char × Trie)} {c : Char} {t : Trie}
    (h : findChild cs c = some t) : (c, t) ∈ cs := by
  induction cs with
  | nil => cases h
  | cons p rest ih =>
      rcases p with ⟨c0, t0⟩
      by_cases hc : c0 = c
      · subst hc
        rw [findChild, if_pos rfl] at h
        exact List.mem_cons.mpr (Or.inl (by rw [Option.some.inj h]))
      · rw [findChild, if_neg hc] at h
        exact List.mem_cons.mpr (Or.inr (ih h))

/-- The values of a member child are collected by `collectGo`. -/
theorem subset_collectGo {cs : List (Char × Trie)} {c : Char} {t : Trie}
    (h : (c, t) ∈ cs) : ∀ x ∈ t.collect, x ∈ collectGo cs := by
  induction cs with
  | nil => cases h
  | cons p rest ih =>
      rcases p with ⟨c0, t0⟩
      intro x hx
      rcases List.mem_cons.mp h with heq | hmem
      · rw [collectGo, List.mem_append]
        obtain ⟨h1, h2⟩ := Prod.mk.inj heq
        exact Or.inl (h2 ▸ hx)
      · rw [collectGo, List.mem_append]
        exact Or.inr (ih hmem x hx)

/-- Every index returned by a trie query is stored somewhere in the trie. -/
theorem getAllWithPfx_subset_collect :
    ∀ (p : List Char) (t : Trie), ∀ x ∈ t.getAllWithPfx p, x ∈ t.collect := by
  intro p
  induction p with
  | nil => intro t x hx; exact hx
  | cons c rest ih =>
      intro t x hx
      rw [getAllWithPfx] at hx
      cases hfc : findChild t.children c with
      | none => rw [hfc] at hx; cases hx
      | some child =>
          rw [hfc] at hx
          rcases t with ⟨v, cs⟩
          rw [collect, List.mem_append]
          exact Or.inr (subset_collectGo (findChild_mem hfc) x (ih child x hx))

/-- Looking up the updated key returns the new child. -/
theorem findChild_updateChild (cs : List (Char × Trie)) (c : Char) (t : Trie) :
    findChild (updateChild cs c t) c = some t := by
  induction cs with
  | nil => simp [updateChild, findChild]
  | cons p rest ih =>
      rcases p with ⟨c0, t0⟩
      by_cases hc : c0 = c
      · rw [updateChild, if_pos hc, findChild, if_pos rfl]
      · rw [updateChild, if_neg hc, findChild, if_neg hc]
        exact ih

/-- Updating the same key twice keeps only the second binding. -/
theorem updateChild_updateChild (cs : List (Char × Trie)) (c : Char)
    (t1 t2 : Trie) : updateChild (updateChild cs c t1) c t2 = updateChild cs c t2 := by
  induction cs with
  | nil => simp [updateChild]
  | cons p rest ih =>
      rcases p with ⟨c0, t0⟩
      by_cases hc : c0 = c
      · rw [updateChild, if_pos hc, updateChild, if_pos rfl, updateChild, if_pos hc]
      · rw [updateChild, if_neg hc, updateChild, if_neg hc, updateChild, if_neg hc, ih]

/-- The updated binding is a member of the updated child list. -/
theorem updateChild_mem (cs : List (Char × Trie)) (c : Char) (t : Trie) :
    (c, t) ∈ updateChild cs c t := by
  induction cs with
  | nil => simp [updateChild]
  | cons p rest ih =>
      rcases p with ⟨c0, t0⟩
      by_cases hc : c0 = c
      · rw [updateChild, if_pos hc]; exact List.mem_cons_self _ _
      · rw [updateChild, if_neg hc]; exact List.mem_cons_of_mem _ ih

/-- Values collected from an updated child list come from the old list or
from the new child. -/
theorem collectGo_updateChild (cs : List (Char × Trie)) (c : Char) (t : Trie) :
    ∀ x ∈ collectGo (updateChild cs c t), x ∈ collectGo cs ∨ x ∈ t.collect := by
  induction cs with
  | nil =>
      intro x hx
      simp only [updateChild, collectGo, List.append_nil] at hx
      exact Or.inr hx
  | cons p rest ih =>
      rcases p with ⟨c0, t0⟩
      intro x hx
      by_cases hc : c0 = c
      · rw [updateChild, if_pos hc, collectGo, List.mem_append] at hx
        rcases hx with hx | hx
        · exact Or.inr hx
        · exact Or.inl (by rw [collectGo, List.mem_append]; exact Or.inr hx)
      · rw [updateChild, if_neg hc, collectGo, List.mem_append] at hx
        rcases hx with hx | hx
        · exact Or.inl (by rw [collectGo, List.mem_append]; exact Or.inl hx)
        · rcases ih x hx with h | h
          · exact Or.inl (by rw [collectGo, List.mem_append]; exact Or.inr h)
          · exact Or.inr h

/-- Inserting twice under the same geohash stores only the later index: every
collected value of the doubly-inserted trie is the new index or an old value.
The index of the first insertion is forgotten. -/
theorem collect_insert_insert :
    ∀ (g : List Char) (t : Trie) (i1 i2 : Nat),
      ∀ x ∈ ((t.insert g i1).insert g i2).collect, x = i2 ∨ x ∈ t.collect := by
  intro g
  induction g with
  | nil =>
      intro t i1 i2 x hx
      rcases t with ⟨v, cs⟩
      simp only [insert, collect, List.mem_append] at hx
      rcases hx with hx | hx
      · exact Or.inl (by simpa using hx)
      · exact Or.inr (by rw [collect, List.mem_append]; exact Or.inr hx)
  | cons c rest ih =>
      intro t i1 i2 x hx
      rcases t with ⟨v, cs⟩
      simp only [insert, findChild_updateChild, Option.getD_some,
        updateChild_updateChild, collect, List.mem_append] at hx
      rcases hx with hx | hx
      · exact Or.inr (by rw [collect, List.mem_append]; exact Or.inl hx)
      · rcases collectGo_updateChild _ _ _ x hx with h | h
        · exact Or.inr (by rw [collect, List.mem_append]; exact Or.inr h)
        · rcases ih ((findChild cs c).getD Trie.new) i1 i2 x h with h2 | h2
          · exact Or.inl h2
          · cases hfc : findChild cs c with
            | none =>
                rw [hfc] at h2
                cases h2
            | some child =>
                rw [hfc] at h2
                exact Or.inr (by
                  rw [collect, List.mem_append]
                  exact Or.inr (subset_collectGo (findChild_mem hfc) x h2))

/-- The inserted index is visible under every prefix of its geohash. -/
theorem mem_getAllWithPfx_insert :
    ∀ (p q g : List Char) (t : Trie) (i : Nat), p ++ q = g →
      i ∈ (t.insert g i).getAllWithPfx p := by
  have hmemc : ∀ (g : List Char) (t : Trie) (i : Nat), i ∈ (t.insert g i).collect := by
    intro g
    induction g with
    | nil =>
        intro t i
        rcases t with ⟨v, cs⟩
        simp [insert, collect]
    | cons c rest ih =>
        intro t i
        rcases t with ⟨v, cs⟩
        simp only [insert, collect, List.mem_append]
        exact Or.inr (subset_collectGo (updateChild_mem cs c _) i
          (ih ((findChild cs c).getD Trie.new) i))
  intro p
  induction p with
  | nil =>
      intro q g t i hpq
      exact hmemc g t i
  | cons c p1 ih =>
      intro q g t i hpq
      rcases t with ⟨v, cs⟩
      subst hpq
      simp only [List.cons_append, insert, getAllWithPfx, children,
        findChild_updateChild]
      exact ih q _ _ i rfl

end Trie

/-- Claim C9 (implicit): `Trie::insert` stores at most one waypoint index per
full geohash — inserting `i2` with the same geohash as an earlier insertion
of `i1` overwrites the stored index, so for every prefix of that geohash
(including the empty prefix) `get_all_with_prefix` returns `i2` and, provided
`i1` is stored nowhere else in the trie, never returns `i1`: the earlier
waypoint becomes invisible to the spatial index. -/
theorem claim9_trie_overwrite (t : Trie) (g : List Char) (i1 i2 : Nat)
    (hne : i1 ≠ i2) (hfresh : i1 ∉ t.collect) :
    ∀ p q : List Char, p ++ q = g →
      i2 ∈ ((t.insert g i1).insert g i2).getAllWithPfx p ∧
      i1 ∉ ((t.insert g i1).insert g i2).getAllWithPfx p := by
  intro p q hpq
  constructor
  · subst hpq
    exact Trie.mem_getAllWithPfx_insert p q _ (t.insert (p ++ q) i1) i2 rfl
  · intro hmem
    have := Trie.getAllWithPfx_subset_collect p _ i1 hmem
    rcases Trie.collect_insert_insert g t i1 i2 i1 this with h | h
    · exact hne h
    · exact hfresh h

/-- Witness for claim C9: inserting 5 then 7 under the geohash `abc` into an
empty trie makes 7 visible and 5 invisible under the prefix `ab`. -/
theorem claim9_witness :
    ((5 : Nat) ≠ 7 ∧ (5 : Nat) ∉ Trie.new.collect) ∧
    (7 ∈ ((Trie.new.insert "abc".toList 5).insert "abc".toList 7).getAllWithPfx
        "ab".toList ∧
      5 ∉ ((Trie.new.insert "abc".toList 5).insert "abc".toList 7).getAllWithPfx
        "ab".toList) :=
  ⟨⟨by decide, by decide⟩,
    claim9_trie_overwrite Trie.new "abc".toList 5 7 (by decide) (by decide)
      "ab".toList "c".toList (by decide)⟩

/-! ## Claim C1: the ring-expansion loop on a degenerate dataset -/

/-- A single waypoint at the origin. -/
def wSolo : Waypoint := ⟨0, 0, "A", encode 0 0 8, []⟩

/-- A dataset holding only `wSolo`: fewer than `k + 1` waypoints for any
`k ≥ 1`. -/
def dsSolo : Dataset := ⟨[wSolo], Trie.new.insert (encode 0 0 8) 0⟩

set_option maxRecDepth 1000000 in
unseal Rat.add Rat.sub Rat.mul Rat.inv in
/-- The spatial index of the degenerate dataset stores only index 0. -/
theorem dsSolo_collect : dsSolo.geohash_index.collect = [0] := by decide

/-- Visiting a list of already-visited candidate indices leaves the KNN
state unchanged. -/
theorem knnVisitAll_visited (d : Waypoint → Waypoint → ℚ) (ds : Dataset)
    (w : Waypoint) :
    ∀ (l : List Nat) (st : List Connection × List Nat),
      (∀ x ∈ l, x ∈ st.2) → Dataset.knnVisitAll d ds w l st = some st := by
  intro l
  induction l with
  | nil => intro st _; rfl
  | cons i rest ih =>
      intro st hvis
      rw [Dataset.knnVisitAll, Dataset.knnVisit,
        if_pos (hvis i (List.mem_cons_self i rest))]
      exact ih st (fun x hx => hvis x (List.mem_cons_of_mem i hx))

/-- On the degenerate dataset the ring-expansion loop makes no progress from
the empty-heap state, for any remaining search key. -/
theorem knnLoop_dsSolo_stuck :
    ∀ (fuel : Nat) (key : List Char),
      Dataset.knnLoop dL1 dsSolo wSolo 1 fuel key ([], [0]) = .outOfFuel := by
  intro fuel
  induction fuel with
  | zero => intro key; rw [Dataset.knnLoop, if_pos (by decide)]
  | succ f ih =>
      intro key
      have hvis : Dataset.knnVisitAll dL1 dsSolo wSolo
          (dsSolo.search_geohash key.dropLast) ([], [0]) = some ([], [0]) := by
        apply knnVisitAll_visited
        intro x hx
        have := Trie.getAllWithPfx_subset_collect key.dropLast
          dsSolo.geohash_index x hx
        rw [dsSolo_collect] at this
        simpa using this
      rw [Dataset.knnLoop, if_pos (by decide)]
      simp only [hvis]
      exact ih key.dropLast

/-- Claim C1 (code bug): on a dataset with fewer than `k + 1` waypoints the
`while min_heap.len() < k` ring-expansion loop of `get_knn_geohash` never
terminates — once the search key is exhausted, every further iteration
re-queries the same already-visited indices and the heap never grows; there
is no fall back to a full dataset scan.  In the fuelled embedding the search
returns `outOfFuel` for every fuel on the one-waypoint dataset with `k = 1`,
where the spec requires termination via a full-scan fallback. -/
theorem claim1_ring_search_diverges :
    ∀ fuel : Nat, Dataset.get_knn_geohash dL1 fuel dsSolo wSolo 1 = .outOfFuel := by
  intro fuel
  have hidx : dsSolo.get_waypoint_index wSolo = some 0 := by rfl
  rw [Dataset.get_knn_geohash, hidx]
  exact knnLoop_dsSolo_stuck fuel wSolo.geohash

/-! ## Claim C4: properties of both KNN searches -/

/-- A resolved waypoint index lies in bounds and carries the queried label. -/
theorem get_waypoint_index_spec (ds : Dataset) (w : Waypoint) (iw : Nat)
    (h : ds.get_waypoint_index w = some iw) :
    ∃ hlt : iw < ds.waypoints.length, (ds.waypoints[iw]).label = w.label := by
  rw [Dataset.get_waypoint_index, List.findIdx?_eq_some_iff_findIdx_eq] at h
  rcases h with ⟨hlt, hfi⟩
  refine ⟨hlt, ?_⟩
  have h2 := @List.findIdx_getElem Waypoint (fun x => x.label = w.label)
    ds.waypoints (by rw [hfi]; exact hlt)
  simp only [hfi] at h2
  exact of_decide_eq_true h2

/-- Indices produced by `enumFrom` are strictly increasing. -/
theorem pairwise_fst_lt_enumFrom {α : Type} :
    ∀ (l : List α) (n : Nat),
      List.Pairwise (fun p q : Nat × α => p.1 < q.1) (List.enumFrom n l) := by
  intro l
  induction l with
  | nil => intro n; simp
  | cons x xs ih =>
      intro n
      rw [List.enumFrom_cons]
      refine List.Pairwise.cons ?_ (ih (n + 1))
      rintro ⟨i, y⟩ hq
      exact lt_of_lt_of_le (Nat.lt_succ_self n) (List.mem_enumFrom hq).1

/-- Members of the naive KNN result come from skipping label-equal waypoints:
each is a connection to a stored waypoint with a different label. -/
theorem mem_knn_naive (d : Waypoint → Waypoint → ℚ) (ds : Dataset)
    (w : Waypoint) (k : Nat) :
    ∀ c ∈ ds.get_knn_naive d w k, ∃ x, ds.waypoints[c.waypoint_index]? = some x ∧
      x.label ≠ w.label ∧ c.distance = d w x := by
  intro c hc
  rw [Dataset.get_knn_naive] at hc
  have hc2 : c ∈ sortByDistance (ds.waypoints.enum.filterMap fun p =>
      if w.label ≠ p.2.label then
        some { distance := d w p.2, waypoint_index := p.1 }
      else none) := List.mem_of_mem_take hc
  rw [sortByDistance] at hc2
  have hc3 := (List.perm_insertionSort connLE _).mem_iff.mp hc2
  rcases List.mem_filterMap.mp hc3 with ⟨⟨i, x⟩, hmem, hf⟩
  rcases List.mem_enum hmem with ⟨hlt, hx⟩
  by_cases hlabel : w.label ≠ x.label
  · rw [if_pos hlabel] at hf
    rcases Option.some.inj hf with rfl
    refine ⟨x, ?_, fun h => hlabel h.symm, rfl⟩
    rw [List.getElem?_eq_getElem hlt, hx]
  · rw [if_neg hlabel] at hf
    cases hf

/-- The naive KNN candidates are pairwise distinct in target index. -/
theorem knn_naive_pairwise_ne (d : Waypoint → Waypoint → ℚ) (ds : Dataset)
    (w : Waypoint) (k : Nat) :
    List.Pairwise (fun a b : Connection => a.waypoint_index ≠ b.waypoint_index)
      (ds.get_knn_naive d w k) := by
  rw [Dataset.get_knn_naive]
  apply List.Pairwise.sublist (List.take_sublist _ _)
  rw [sortByDistance]
  rw [(List.perm_insertionSort connLE _).pairwise_iff (fun h => Ne.symm h)]
  apply List.Pairwise.filterMap _ ?step
  · exact pairwise_fst_lt_enumFrom ds.waypoints 0
  · rintro ⟨i, x⟩ ⟨j, y⟩ hlt b hb b2 hb2
    by_cases h1 : w.label ≠ x.label
    · rw [if_pos h1] at hb
      by_cases h2 : w.label ≠ y.label
      · rw [if_pos h2] at hb2
        rcases Option.some.inj hb with rfl
        rcases Option.some.inj hb2 with rfl
        exact Nat.ne_of_lt hlt
      · rw [if_neg h2] at hb2; cases hb2
    · rw [if_neg h1] at hb
      cases hb

/-- Invariant of the geohash KNN state: the query's own index is visited,
every heap candidate targets a visited index other than the query's own, and
heap candidates target pairwise distinct indices. -/
def KnnInv (iw : Nat) (st : List Connection × List Nat) : Prop :=
  iw ∈ st.2 ∧ (∀ c ∈ st.1, c.waypoint_index ∈ st.2 ∧ c.waypoint_index ≠ iw) ∧
  List.Pairwise (fun a b : Connection => a.waypoint_index ≠ b.waypoint_index) st.1

/-- `knnVisit` preserves the KNN invariant. -/
theorem knnVisit_inv {d : Waypoint → Waypoint → ℚ} {ds : Dataset} {w : Waypoint}
    {iw : Nat} {st st1 : List Connection × List Nat} {idx : Nat}
    (h : Dataset.knnVisit d ds w st idx = some st1) (hinv : KnnInv iw st) :
    KnnInv iw st1 := by
  rw [Dataset.knnVisit] at h
  rcases hinv with ⟨hiw, hheap, hpair⟩
  by_cases hvis : idx ∈ st.2
  · rw [if_pos hvis] at h
    rw [← Option.some.inj h]
    exact ⟨hiw, hheap, hpair⟩
  · rw [if_neg hvis] at h
    cases hnb : ds.waypoints[idx]? with
    | none => rw [hnb] at h; cases h
    | some nb =>
        rw [hnb] at h
        rw [← Option.some.inj h]
        refine ⟨List.mem_cons_of_mem idx hiw, ?_, ?_⟩
        · intro c hc
          rcases List.mem_cons.mp hc with rfl | hc
          · exact ⟨List.mem_cons_self idx st.2,
              fun h => hvis ((show idx = iw from h) ▸ hiw)⟩
          · exact ⟨List.mem_cons_of_mem idx (hheap c hc).1, (hheap c hc).2⟩
        · refine List.Pairwise.cons ?_ hpair
          intro c hc h
          exact hvis ((show idx = c.waypoint_index from h) ▸ (hheap c hc).1)

/-- `knnVisit` only grows the visited set. -/
theorem knnVisit_visited_grows {d : Waypoint → Waypoint → ℚ} {ds : Dataset}
    {w : Waypoint} {st st1 : List Connection × List Nat} {idx : Nat}
    (h : Dataset.knnVisit d ds w st idx = some st1) :
    ∀ x ∈ st.2, x ∈ st1.2 := by
  rw [Dataset.knnVisit] at h
  by_cases hvis : idx ∈ st.2
  · rw [if_pos hvis] at h
    rw [← Option.some.inj h]
    exact fun x hx => hx
  · rw [if_neg hvis] at h
    cases hnb : ds.waypoints[idx]? with
    | none => rw [hnb] at h; cases h
    | some nb =>
        rw [hnb] at h
        rw [← Option.some.inj h]
        exact fun x hx => List.mem_cons_of_mem idx hx

/-- `knnVisitAll` preserves the KNN invariant. -/
theorem knnVisitAll_inv {d : Waypoint → Waypoint → ℚ} {ds : Dataset}
    {w : Waypoint} {iw : Nat} :
    ∀ {l : List Nat} {st st1 : List Connection × List Nat},
      Dataset.knnVisitAll d ds w l st = some st1 → KnnInv iw st → KnnInv iw st1 := by
  intro l
  induction l with
  | nil =>
      intro st st1 h hinv
      rw [← Option.some.inj h]
      exact hinv
  | cons i rest ih =>
      intro st st1 h hinv
      rw [Dataset.knnVisitAll] at h
      cases hv : Dataset.knnVisit d ds w st i with
      | none => rw [hv] at h; cases h
      | some st2 =>
          rw [hv] at h
          exact ih h (knnVisit_inv hv hinv)

/-- `visitCells` preserves the KNN invariant. -/
theorem visitCells_inv {d : Waypoint → Waypoint → ℚ} {ds : Dataset}
    {w : Waypoint} {iw : Nat} :
    ∀ {cells : List (List Char)} {st st1 : List Connection × List Nat},
      Dataset.visitCells d ds w cells st = some st1 → KnnInv iw st → KnnInv iw st1 := by
  intro cells
  induction cells with
  | nil =>
      intro st st1 h hinv
      rw [← Option.some.inj h]
      exact hinv
  | cons cell rest ih =>
      intro st st1 h hinv
      rw [Dataset.visitCells] at h
      cases hv : Dataset.knnVisitAll d ds w (ds.search_geohash cell) st with
      | none => rw [hv] at h; cases h
      | some st2 =>
          rw [hv] at h
          exact ih h (knnVisitAll_inv hv hinv)

/-- The properties claim C4 asserts of a KNN result list with respect to the
query's own index `iw`. -/
def KnnResultProps (k iw : Nat) (l : List Connection) : Prop :=
  l.length ≤ k ∧ List.Sorted connLE l ∧
  List.Pairwise (fun a b : Connection => a.waypoint_index ≠ b.waypoint_index) l ∧
  ∀ c ∈ l, c.waypoint_index ≠ iw

/-- Sorting and truncating a heap satisfying the invariant yields a result
with the claimed properties. -/
theorem knnResultProps_of_inv {k iw : Nat} {st : List Connection × List Nat}
    (hinv : KnnInv iw st) : KnnResultProps k iw ((sortByDistance st.1).take k) := by
  rcases hinv with ⟨_, hheap, hpair⟩
  refine ⟨?_, ?_, ?_, ?_⟩
  · rw [List.length_take]
    exact min_le_left _ _
  · exact List.Pairwise.sublist (List.take_sublist _ _)
      (List.sorted_insertionSort connLE st.1)
  · apply List.Pairwise.sublist (List.take_sublist _ _)
    rw [sortByDistance,
      (List.perm_insertionSort connLE _).pairwise_iff (fun h => Ne.symm h)]
    exact hpair
  · intro c hc
    have hc2 : c ∈ sortByDistance st.1 := List.mem_of_mem_take hc
    rw [sortByDistance] at hc2
    exact (hheap c ((List.perm_insertionSort connLE _).mem_iff.mp hc2)).2

/-- Whenever the boundary pass completes normally from a state satisfying
the invariant, its result has the claimed properties. -/
theorem knnFinish_ok_props {d : Waypoint → Waypoint → ℚ} {ds : Dataset}
    {w : Waypoint} {k iw : Nat} {key : List Char}
    {st : List Connection × List Nat} {l : List Connection}
    (h : Dataset.knnFinish d ds w k key st = .ok l) (hinv : KnnInv iw st) :
    KnnResultProps k iw l := by
  rw [Dataset.knnFinish] at h
  split at h
  · cases h
  · split at h
    · cases h
    · rename_i st1 hv
      rw [← (KnnResult.ok.inj h)]
      exact knnResultProps_of_inv (visitCells_inv hv hinv)

/-- Whenever the fuelled ring-expansion KNN loop completes normally from a
state satisfying the invariant, its result has the claimed properties. -/
theorem knnLoop_ok_props {d : Waypoint → Waypoint → ℚ} {ds : Dataset}
    {w : Waypoint} {k iw : Nat} :
    ∀ {fuel : Nat} {key : List Char} {st : List Connection × List Nat}
      {l : List Connection},
      Dataset.knnLoop d ds w k fuel key st = .ok l → KnnInv iw st →
      KnnResultProps k iw l := by
  intro fuel
  induction fuel with
  | zero =>
      intro key st l h hinv
      rw [Dataset.knnLoop] at h
      by_cases hlen : st.1.length < k
      · rw [if_pos hlen] at h; cases h
      · rw [if_neg hlen] at h
        exact knnFinish_ok_props h hinv
  | succ f ih =>
      intro key st l h hinv
      rw [Dataset.knnLoop] at h
      by_cases hlen : st.1.length < k
      · rw [if_pos hlen] at h
        split at h
        · cases h
        · rename_i st1 hv
          exact ih h (knnVisitAll_inv hv hinv)
      · rw [if_neg hlen] at h
        exact knnFinish_ok_props h hinv

/-- Counterexample dataset for the strict-ascent part of claim C4: waypoints
`B` and `C` share the same coordinates, so their distances to `A` are equal
under any distance function of the coordinates (the f32 Haversine included). -/
def dsTie : Dataset :=
  ⟨[⟨0, 0, "A", [], []⟩, ⟨1, 1, "B", [], []⟩, ⟨1, 1, "C", [], []⟩], Trie.new⟩

unseal Rat.add Rat.sub Rat.mul Rat.inv in
/-- Counterexample for claim C4 as stated: on a 3-waypoint dataset with
unique labels and two candidates at identical coordinates, `get_knn_naive`
with `k = 2` returns two connections with EQUAL distances, so its result is
not strictly ascending by distance. -/
theorem claim4_counterexample :
    (dsTie.waypoints.map Waypoint.label).Nodup ∧
    dsTie.wpAt 0 ∈ dsTie.waypoints ∧ 2 ≤ dsTie.waypoints.length - 1 ∧
    ¬ List.Pairwise (fun a b : Connection => a.distance < b.distance)
      (dsTie.get_knn_naive dL1 (dsTie.wpAt 0) 2) := by
  refine ⟨by decide, by decide, by decide, by decide⟩

/-- Claim C4 (corrected): for a dataset with unique labels, a waypoint `w`
resolving to index `iw`, and `k` at most the dataset size minus 1, both
`get_knn_naive` and (whenever it completes) `get_knn_geohash` return at most
`k` connections, sorted ascending by distance — NON-strictly, ties are
possible whenever two candidates are equidistant, which refutes the
"strictly ascending" part of the original claim for `get_knn_naive` — with
pairwise distinct target indices never equal to `iw`. -/
theorem claim4_knn_properties (d : Waypoint → Waypoint → ℚ) (ds : Dataset)
    (w : Waypoint) (k iw : Nat)
    (hlab : (ds.waypoints.map Waypoint.label).Nodup)
    (hw : w ∈ ds.waypoints)
    (hk : k ≤ ds.waypoints.length - 1)
    (hiw : ds.get_waypoint_index w = some iw) :
    KnnResultProps k iw (ds.get_knn_naive d w k) ∧
    ∀ (fuel : Nat) (l : List Connection),
      ds.get_knn_geohash d fuel w k = .ok l → KnnResultProps k iw l := by
  constructor
  · refine ⟨?_, ?_, knn_naive_pairwise_ne d ds w k, ?_⟩
    · rw [Dataset.get_knn_naive, List.length_take]
      exact min_le_left _ _
    · rw [Dataset.get_knn_naive]
      exact List.Pairwise.sublist (List.take_sublist _ _)
        (List.sorted_insertionSort connLE _)
    · intro c hc
      rcases mem_knn_naive d ds w k c hc with ⟨x, hx, hlabel, _⟩
      intro hceq
      rcases get_waypoint_index_spec ds w iw hiw with ⟨hlt, hlabw⟩
      rw [hceq, List.getElem?_eq_getElem hlt] at hx
      exact hlabel ((Option.some.inj hx) ▸ hlabw)
  · intro fuel l h
    simp only [Dataset.get_knn_geohash, hiw] at h
    exact knnLoop_ok_props h
      ⟨List.mem_cons_self iw [],
        ⟨fun c hc => absurd hc (List.not_mem_nil c), List.Pairwise.nil⟩⟩

/-- First waypoint of the two-waypoint witness dataset. -/
def wPairA : Waypoint := ⟨0, 0, "A", encode 0 0 8, [⟨1, 1⟩]⟩

/-- Second waypoint of the two-waypoint witness dataset. -/
def wPairB : Waypoint := ⟨0, 1, "B", encode 0 1 8, []⟩

/-- A two-waypoint dataset (`A` at the origin connected to `B` one degree of
longitude east, with `dL1` distance 1) used by several witnesses. -/
def dsPair : Dataset :=
  ⟨[wPairA, wPairB], (Trie.new.insert (encode 0 0 8) 0).insert (encode 0 1 8) 1⟩

unseal Rat.add Rat.sub Rat.mul Rat.inv in
/-- Witness for claim C4 on a concrete 2-waypoint dataset where the geohash
search completes with fuel 20 and `k = 1`. -/
theorem claim4_witness :
    ((dsPair.waypoints.map Waypoint.label).Nodup ∧ dsPair.wpAt 0 ∈ dsPair.waypoints ∧
      1 ≤ dsPair.waypoints.length - 1 ∧
      dsPair.get_waypoint_index (dsPair.wpAt 0) = some 0 ∧
      dsPair.get_knn_geohash dL1 20 (dsPair.wpAt 0) 1 = .ok [⟨1, 1⟩]) ∧
    (KnnResultProps 1 0 (dsPair.get_knn_naive dL1 (dsPair.wpAt 0) 1) ∧
      KnnResultProps 1 0 [⟨1, 1⟩]) :=
  ⟨⟨by decide, by decide, by decide, by decide, by decide⟩,
    (claim4_knn_properties dL1 dsPair (dsPair.wpAt 0) 1 0 (by decide) (by decide)
        (by decide) (by decide)).1,
    (claim4_knn_properties dL1 dsPair (dsPair.wpAt 0) 1 0 (by decide) (by decide)
        (by decide) (by decide)).2 20 [⟨1, 1⟩] (by decide)⟩

/-! ## Claim C8: dataset operations preserve existing waypoints -/

/-- The structural preservation property of claim C8 between two datasets of
equal length: every waypoint keeps its coordinates, label and geohash, and
its connection list is only ever appended to. -/
def Preserves (ds ds1 : Dataset) : Prop :=
  ds1.waypoints.length = ds.waypoints.length ∧
  ∀ i, i < ds.waypoints.length →
    (ds1.wpAt i).lat = (ds.wpAt i).lat ∧
    (ds1.wpAt i).lon = (ds.wpAt i).lon ∧
    (ds1.wpAt i).label = (ds.wpAt i).label ∧
    (ds1.wpAt i).geohash = (ds.wpAt i).geohash ∧
    ∃ ext, (ds1.wpAt i).connections = (ds.wpAt i).connections ++ ext

/-- Preservation is reflexive. -/
theorem preserves_self (ds : Dataset) : Preserves ds ds :=
  ⟨rfl, fun _ _ => ⟨rfl, rfl, rfl, rfl, [], (List.append_nil _).symm⟩⟩

/-- Preservation is transitive. -/
theorem Preserves.trans {ds1 ds2 ds3 : Dataset} (h1 : Preserves ds1 ds2)
    (h2 : Preserves ds2 ds3) : Preserves ds1 ds3 := by
  refine ⟨h2.1.trans h1.1, fun i hi => ?_⟩
  rcases h1.2 i hi with ⟨ha, hb, hc, hd, ext1, he⟩
  rcases h2.2 i (h1.1 ▸ hi) with ⟨ha2, hb2, hc2, hd2, ext2, he2⟩
  exact ⟨ha2.trans ha, hb2.trans hb, hc2.trans hc, hd2.trans hd,
    ext1 ++ ext2, by rw [he2, he, List.append_assoc]⟩

/-- The effect of `modifyWaypoint`: same length, the modified slot holds the
transformed waypoint, every other slot is untouched. -/
theorem modifyWaypoint_spec {ds ds1 : Dataset} {i : Nat} {f : Waypoint → Waypoint}
    (h : ds.modifyWaypoint i f = some ds1) :
    i < ds.waypoints.length ∧
    ds1.waypoints.length = ds.waypoints.length ∧
    ds1.wpAt i = f (ds.wpAt i) ∧
    ∀ j, j ≠ i → ds1.wpAt j = ds.wpAt j := by
  rw [Dataset.modifyWaypoint] at h
  cases hw : ds.waypoints[i]? with
  | none => rw [hw] at h; cases h
  | some w =>
      rw [hw] at h
      have hlt : i < ds.waypoints.length := by
        by_contra hge
        rw [List.getElem?_eq_none (Nat.le_of_not_lt hge)] at hw
        cases hw
      have hwi : w = ds.wpAt i := by
        rw [Dataset.wpAt, List.getD_eq_getElem?_getD, hw, Option.getD_some]
      rcases Option.some.inj h with rfl
      refine ⟨hlt, by simp [List.length_set], ?_, ?_⟩
      · rw [Dataset.wpAt, List.getD_eq_getElem?_getD]
        show ((ds.waypoints.set i (f w))[i]?).getD default = _
        rw [List.getElem?_set_self hlt, Option.getD_some, hwi]
      · intro j hj
        rw [Dataset.wpAt, Dataset.wpAt, List.getD_eq_getElem?_getD,
          List.getD_eq_getElem?_getD]
        show ((ds.waypoints.set i (f w))[j]?).getD default = _
        rw [List.getElem?_set_ne (fun hh => hj hh.symm)]

/-- Modifying one waypoint by appending to its connection list preserves the
dataset. -/
theorem modifyWaypoint_preserves {ds ds1 : Dataset} {i : Nat}
    {cs : List Connection}
    (h : ds.modifyWaypoint i
        (fun w => { w with connections := w.connections ++ cs }) = some ds1) :
    Preserves ds ds1 := by
  rcases modifyWaypoint_spec h with ⟨hlt, hlen, hset, hother⟩
  refine ⟨hlen, fun j hj => ?_⟩
  by_cases hij : j = i
  · subst hij
    rw [hset]
    exact ⟨rfl, rfl, rfl, rfl, cs, rfl⟩
  · rw [hother j hij]
    exact ⟨rfl, rfl, rfl, rfl, [], (List.append_nil _).symm⟩

/-- The assignment loop of `assign_all_connections_geohash` preserves the
dataset. -/
theorem assignLoop_preserves (d : Waypoint → Waypoint → ℚ) (fuel amt : Nat) :
    ∀ (idxs : List Nat) (ds ds1 : Dataset),
      Dataset.assignLoop d fuel amt idxs ds = some ds1 → Preserves ds ds1 := by
  intro idxs
  induction idxs with
  | nil =>
      intro ds ds1 h
      rw [← Option.some.inj h]
      exact preserves_self ds
  | cons i rest ih =>
      intro ds ds1 h
      rw [Dataset.assignLoop] at h
      split at h
      · cases h
      · split at h
        · rename_i conns heq
          split at h
          · cases h
          · rename_i ds2 hmod
            exact (modifyWaypoint_preserves hmod).trans (ih ds2 ds1 h)
        · cases h

/-- Claim C8, first operation: `assign_all_connections_geohash` preserves all
waypoints (coordinates, labels, geohashes untouched, connection lists only
appended to, array length and order unchanged). -/
theorem assign_all_preserves (d : Waypoint → Waypoint → ℚ) (fuel : Nat)
    (ds ds1 : Dataset) (amt : Nat)
    (h : ds.assign_all_connections_geohash d fuel amt = some ds1) :
    Preserves ds ds1 :=
  assignLoop_preserves d fuel amt _ ds ds1 h

/-- `pushReciprocal` preserves the dataset. -/
theorem pushReciprocal_preserves (idx : Nat) :
    ∀ (conns : List Connection) (ds ds1 : Dataset),
      Dataset.pushReciprocal idx conns ds = some ds1 → Preserves ds ds1 := by
  intro conns
  induction conns with
  | nil =>
      intro ds ds1 h
      rw [← Option.some.inj h]
      exact preserves_self ds
  | cons c rest ih =>
      intro ds ds1 h
      rw [Dataset.pushReciprocal] at h
      split at h
      · cases h
      · rename_i ds2 hmod
        exact (modifyWaypoint_preserves hmod).trans (ih ds2 ds1 h)

/-- The append phase leaves every existing waypoint untouched. -/
theorem addWaypointBase_wpAt_old (ds : Dataset) (lat lon : ℚ) (i : Nat)
    (hi : i < ds.waypoints.length) :
    (Dataset.addWaypointBase ds lat lon).wpAt i = ds.wpAt i := by
  rw [Dataset.wpAt, Dataset.wpAt, List.getD_eq_getElem?_getD,
    List.getD_eq_getElem?_getD, Dataset.addWaypointBase, List.getElem?_append_left hi]

/-- The append phase adds exactly one waypoint. -/
theorem addWaypointBase_length (ds : Dataset) (lat lon : ℚ) :
    (Dataset.addWaypointBase ds lat lon).waypoints.length = ds.waypoints.length + 1 := by
  simp [Dataset.addWaypointBase]

/-- The appended slot holds the new waypoint. -/
theorem addWaypointBase_wpAt_new (ds : Dataset) (lat lon : ℚ) :
    (Dataset.addWaypointBase ds lat lon).wpAt ds.waypoints.length = Dataset.newWaypoint ds lat lon := by
  rw [Dataset.wpAt, List.getD_eq_getElem?_getD, Dataset.addWaypointBase]
  show ((ds.waypoints ++ [Dataset.newWaypoint ds lat lon])[ds.waypoints.length]?).getD default = _
  rw [List.getElem?_append_right (Nat.le_refl _), Nat.sub_self]
  rfl

/-- Claim C8, second operation: effects of `add_new_waypoint` on a successful
run — the returned index is the previous array length, the array grows by
exactly one slot, and every pre-existing waypoint keeps its coordinates,
label and geohash, its connection list at most appended to. -/
theorem add_new_waypoint_preserves (d : Waypoint → Waypoint → ℚ) (fuel : Nat)
    (ds ds1 : Dataset) (lat lon : ℚ) (idx : Nat)
    (h : Dataset.add_new_waypoint d fuel ds lat lon = some (ds1, idx)) :
    idx = ds.waypoints.length ∧
    ds1.waypoints.length = ds.waypoints.length + 1 ∧
    ∀ i, i < ds.waypoints.length →
      (ds1.wpAt i).lat = (ds.wpAt i).lat ∧
      (ds1.wpAt i).lon = (ds.wpAt i).lon ∧
      (ds1.wpAt i).label = (ds.wpAt i).label ∧
      (ds1.wpAt i).geohash = (ds.wpAt i).geohash ∧
      ∃ ext, (ds1.wpAt i).connections = (ds.wpAt i).connections ++ ext := by
  have hbase : ∀ ds2 : Dataset, Preserves (Dataset.addWaypointBase ds lat lon) ds2 →
      ds2.waypoints.length = ds.waypoints.length + 1 ∧
      ∀ i, i < ds.waypoints.length →
        (ds2.wpAt i).lat = (ds.wpAt i).lat ∧
        (ds2.wpAt i).lon = (ds.wpAt i).lon ∧
        (ds2.wpAt i).label = (ds.wpAt i).label ∧
        (ds2.wpAt i).geohash = (ds.wpAt i).geohash ∧
        ∃ ext, (ds2.wpAt i).connections = (ds.wpAt i).connections ++ ext := by
    intro ds2 hp
    refine ⟨hp.1.trans (addWaypointBase_length ds lat lon), fun i hi => ?_⟩
    have hi1 : i < (Dataset.addWaypointBase ds lat lon).waypoints.length := by
      rw [addWaypointBase_length]; omega
    rcases hp.2 i hi1 with ⟨ha, hb, hc, hd, ext, he⟩
    rw [addWaypointBase_wpAt_old ds lat lon i hi] at ha hb hc hd he
    exact ⟨ha, hb, hc, hd, ext, he⟩
  rw [Dataset.add_new_waypoint] at h
  split at h
  · cases h
  · rename_i w0 hw0
    by_cases hcond : w0.connections.length > 0
    · rw [if_pos hcond] at h
      split at h
      · rename_i conns hknn
        split at h
        · cases h
        · rename_i ds2 hpush
          split at h
          · cases h
          · rename_i ds3 hmod
            rcases Prod.mk.inj (Option.some.inj h) with ⟨rfl, rfl⟩
            have hp : Preserves (Dataset.addWaypointBase ds lat lon) ds3 :=
              (pushReciprocal_preserves _ conns _ ds2 hpush).trans
                (modifyWaypoint_preserves hmod)
            rcases hbase ds3 hp with ⟨h1, h2⟩
            exact ⟨rfl, h1, h2⟩
      · cases h
    · rw [if_neg hcond] at h
      rcases Prod.mk.inj (Option.some.inj h) with ⟨rfl, rfl⟩
      rcases hbase (Dataset.addWaypointBase ds lat lon) (preserves_self _) with ⟨h1, h2⟩
      exact ⟨rfl, h1, h2⟩

/-- Claim C8: both graph-building mutations — the bulk
`assign_all_connections_geohash` pass and `add_new_waypoint` — preserve all
existing waypoints: coordinates, labels and geohashes are never modified,
connection lists are only appended to, and the waypoint array is append-only
and index-stable (same length and order for bulk assignment, one appended
slot for insertion, previously issued indices untouched). -/
theorem claim8_operations_preserve_waypoints (d : Waypoint → Waypoint → ℚ) :
    (∀ (fuel amt : Nat) (ds ds1 : Dataset),
      ds.assign_all_connections_geohash d fuel amt = some ds1 →
      Preserves ds ds1) ∧
    (∀ (fuel : Nat) (lat lon : ℚ) (ds ds1 : Dataset) (idx : Nat),
      Dataset.add_new_waypoint d fuel ds lat lon = some (ds1, idx) →
      idx = ds.waypoints.length ∧
      ds1.waypoints.length = ds.waypoints.length + 1 ∧
      ∀ i, i < ds.waypoints.length →
        (ds1.wpAt i).lat = (ds.wpAt i).lat ∧
        (ds1.wpAt i).lon = (ds.wpAt i).lon ∧
        (ds1.wpAt i).label = (ds.wpAt i).label ∧
        (ds1.wpAt i).geohash = (ds.wpAt i).geohash ∧
        ∃ ext, (ds1.wpAt i).connections = (ds.wpAt i).connections ++ ext) :=
  ⟨fun fuel amt ds ds1 h => assign_all_preserves d fuel ds ds1 amt h,
   fun fuel lat lon ds ds1 idx h =>
     add_new_waypoint_preserves d fuel ds ds1 lat lon idx h⟩

/-- The result of the bulk assignment pass on the witness dataset. -/
def dsPairAssigned : Dataset :=
  ⟨[⟨0, 0, "A", encode 0 0 8, [⟨1, 1⟩, ⟨1, 1⟩]⟩,
    ⟨0, 1, "B", encode 0 1 8, [⟨1, 0⟩]⟩], dsPair.geohash_index⟩

unseal Rat.add Rat.sub Rat.mul Rat.inv in
/-- Witness for claim C8: the bulk assignment pass on the two-waypoint
dataset completes and preserves both waypoints. -/
theorem claim8_witness :
    dsPair.assign_all_connections_geohash dL1 20 1 = some dsPairAssigned ∧
    Preserves dsPair dsPairAssigned :=
  ⟨by rfl, (claim8_operations_preserve_waypoints dL1).1 20 1 dsPair dsPairAssigned (by rfl)⟩

/-! ## Claim C6: reciprocal wiring of a newly inserted waypoint -/

/-- Exact effect of `pushReciprocal` when the pushed connections target
pairwise distinct indices: every targeted waypoint gains exactly one
back-connection (same distance, pointing at the new index), every other
waypoint is untouched. -/
theorem pushReciprocal_spec (idx : Nat) :
    ∀ (conns : List Connection) (ds ds1 : Dataset),
      Dataset.pushReciprocal idx conns ds = some ds1 →
      List.Pairwise (fun a b : Connection => a.waypoint_index ≠ b.waypoint_index)
        conns →
      ds1.waypoints.length = ds.waypoints.length ∧
      ∀ j : Nat,
        ((∀ c ∈ conns, c.waypoint_index ≠ j) → ds1.wpAt j = ds.wpAt j) ∧
        (∀ c ∈ conns, c.waypoint_index = j →
          ds1.wpAt j = { ds.wpAt j with
            connections := (ds.wpAt j).connections ++ [⟨c.distance, idx⟩] }) := by
  intro conns
  induction conns with
  | nil =>
      intro ds ds1 h _
      rw [← Option.some.inj h]
      exact ⟨rfl, fun j => ⟨fun _ => rfl, fun c hc => absurd hc (List.not_mem_nil c)⟩⟩
  | cons c rest ih =>
      intro ds ds1 h hpair
      rw [Dataset.pushReciprocal] at h
      split at h
      · cases h
      · rename_i dsm hmod
        rcases modifyWaypoint_spec hmod with ⟨hlt, hlen, hset, hother⟩
        rcases ih dsm ds1 h (List.Pairwise.of_cons hpair) with ⟨hlen2, hrest⟩
        have hheadne : ∀ r ∈ rest, c.waypoint_index ≠ r.waypoint_index :=
          fun r hr => List.rel_of_pairwise_cons hpair hr
        refine ⟨hlen2.trans hlen, fun j => ⟨?_, ?_⟩⟩
        · intro hne
          have h1 : dsm.wpAt j = ds.wpAt j :=
            hother j (fun hj => hne c (List.mem_cons_self c rest) (hj ▸ rfl))
          have h2 : ds1.wpAt j = dsm.wpAt j :=
            (hrest j).1 (fun r hr => hne r (List.mem_cons_of_mem c hr))
          rw [h2, h1]
        · intro c2 hc2 hc2j
          rcases List.mem_cons.mp hc2 with rfl | hmem
          · subst hc2j
            have h2 : ds1.wpAt c2.waypoint_index = dsm.wpAt c2.waypoint_index :=
              (hrest c2.waypoint_index).1
                (fun r hr hrj => hheadne r hr (by rw [hrj]))
            rw [h2, hset]
          · have hcne : c.waypoint_index ≠ j := hc2j ▸ hheadne c2 hmem
            have h1 : dsm.wpAt j = ds.wpAt j :=
              hother j (fun hj => hcne (hj ▸ rfl))
            have h2 := (hrest j).2 c2 hmem hc2j
            rw [h2, h1]

/-- If no existing waypoint carries `p`'s label, a label search over the
extended array finds exactly the appended waypoint. -/
theorem findIdx?_append_singleton {α : Type} (p : α → Bool) (y : α) :
    ∀ l : List α, (∀ x ∈ l, p x = false) →
      List.findIdx? p (l ++ [y]) = if p y then some l.length else none := by
  intro l
  induction l with
  | nil =>
      intro _
      rw [List.nil_append, List.findIdx?_cons]
      by_cases hy : p y
      · rw [if_pos hy, if_pos hy]; rfl
      · rw [if_neg hy, if_neg hy]; rfl
  | cons x xs ih =>
      intro hall
      rw [List.cons_append, List.findIdx?_cons,
        if_neg (by rw [hall x (List.mem_cons_self x xs)]; exact Bool.false_ne_true),
        List.findIdx?_succ, ih (fun z hz => hall z (List.mem_cons_of_mem x hz))]
      by_cases hy : p y
      · rw [if_pos hy, if_pos hy]; rfl
      · rw [if_neg hy, if_neg hy]; rfl

/-- Under the fresh-label hypothesis, the new waypoint resolves to the new
index in the extended dataset. -/
theorem get_waypoint_index_fresh (ds : Dataset) (lat lon : ℚ)
    (hfresh : ∀ x ∈ ds.waypoints, x.label ≠ (Dataset.newWaypoint ds lat lon).label) :
    (Dataset.addWaypointBase ds lat lon).get_waypoint_index
      (Dataset.newWaypoint ds lat lon) = some ds.waypoints.length := by
  rw [Dataset.get_waypoint_index]
  show List.findIdx? _ (ds.waypoints ++ [Dataset.newWaypoint ds lat lon]) = _
  rw [findIdx?_append_singleton _ _ ds.waypoints
    (fun x hx => decide_eq_false (hfresh x hx))]
  rw [if_pos (decide_eq_true rfl)]

/-- Collision dataset for the C6 counterexample: its only waypoint is
labelled `B`, which is exactly the label `generate_label 1 2` that
`add_new_waypoint` will assign to the inserted waypoint. -/
def dsColl : Dataset :=
  ⟨[⟨0, 0, "B", encode 0 0 8, [⟨0, 0⟩]⟩], Trie.new.insert (encode 0 0 8) 0⟩

unseal Rat.add Rat.sub Rat.mul Rat.inv in
/-- Counterexample for claim C6 as stated: on `dsColl` (waypoint 0 has
`c = 1` connection) the generated label of the new waypoint collides with an
existing label, `get_waypoint_index` resolves to the wrong index, the KNN
search returns the new waypoint ITSELF as its nearest neighbor, and the new
waypoint ends up with 2 connections (a self-loop pushed reciprocally plus
the extended copy) instead of exactly its `c = 1` nearest neighbors. -/
theorem claim6_counterexample :
    (dsColl.wpAt 0).connections.length = 1 ∧
    (Dataset.add_new_waypoint dL1 50 dsColl 0 0).map
      (fun p => (p.2, (p.1.wpAt 1).connections)) =
      some (1, [⟨0, 1⟩, ⟨0, 1⟩]) := by
  exact ⟨by rfl, by rfl⟩

/-- Claim C6 (corrected): when `add_new_waypoint(lat, lon)` is called on a
nonempty dataset where waypoint 0 has `c > 0` connections AND the generated
label of the new waypoint does not collide with any existing label (the
amendment — the original claim fails under a label collision), then on every
completed run: the new waypoint is appended at index = previous length and
that index is returned; its connection list becomes exactly the `c` nearest
neighbors computed by the geohash KNN search on the extended dataset; each
neighbor gains exactly one back-connection to the new index with the same
distance; and no other waypoint changes. -/
theorem claim6_add_waypoint_wiring (d : Waypoint → Waypoint → ℚ) (fuel : Nat)
    (ds ds1 : Dataset) (lat lon : ℚ) (idx : Nat)
    (hn : 0 < ds.waypoints.length)
    (hc : 0 < (ds.wpAt 0).connections.length)
    (hfresh : ∀ x ∈ ds.waypoints, x.label ≠ (Dataset.newWaypoint ds lat lon).label)
    (h : Dataset.add_new_waypoint d fuel ds lat lon = some (ds1, idx)) :
    idx = ds.waypoints.length ∧
    ds1.waypoints.length = ds.waypoints.length + 1 ∧
    ∃ conns,
      (Dataset.addWaypointBase ds lat lon).get_knn_geohash d fuel
        (Dataset.newWaypoint ds lat lon) (ds.wpAt 0).connections.length = .ok conns ∧
      (ds1.wpAt idx).connections = conns ∧
      ∀ j, j < ds.waypoints.length →
        ((∀ co ∈ conns, co.waypoint_index ≠ j) → ds1.wpAt j = ds.wpAt j) ∧
        (∀ co ∈ conns, co.waypoint_index = j →
          ds1.wpAt j = { ds.wpAt j with
            connections := (ds.wpAt j).connections ++ [⟨co.distance, idx⟩] }) := by
  have hw0eq : (Dataset.addWaypointBase ds lat lon).waypoints[0]? = some (ds.wpAt 0) := by
    show (ds.waypoints ++ [Dataset.newWaypoint ds lat lon])[0]? = _
    rw [List.getElem?_append_left hn, Dataset.wpAt, List.getD_eq_getElem?_getD,
      List.getElem?_eq_getElem hn]
    rfl
  simp only [Dataset.add_new_waypoint, hw0eq] at h
  rw [if_pos hc] at h
  split at h
  · rename_i conns hknn
    split at h
    · cases h
    · rename_i ds2 hpush
      split at h
      · cases h
      · rename_i ds3 hmod
        rcases Prod.mk.inj (Option.some.inj h) with ⟨rfl, rfl⟩
        -- the KNN result's structural properties
        have hprops : KnnResultProps (ds.wpAt 0).connections.length
            ds.waypoints.length conns := by
          rw [Dataset.get_knn_geohash, get_waypoint_index_fresh ds lat lon hfresh] at hknn
          exact knnLoop_ok_props hknn
            ⟨List.mem_cons_self _ [],
              ⟨fun c hcm => absurd hcm (List.not_mem_nil c), List.Pairwise.nil⟩⟩
        rcases hprops with ⟨_, _, hpair, hnotown⟩
        rcases pushReciprocal_spec ds.waypoints.length conns
          (Dataset.addWaypointBase ds lat lon) ds2 hpush hpair with ⟨hlen2, hspec⟩
        rcases modifyWaypoint_spec hmod with ⟨hlt3, hlen3, hset3, hother3⟩
        refine ⟨rfl, by
          rw [hlen3, hlen2, addWaypointBase_length], conns, hknn, ?_, ?_⟩
        · -- the new waypoint's connection list is exactly the KNN result
          have h2 : ds2.wpAt ds.waypoints.length =
              (Dataset.addWaypointBase ds lat lon).wpAt ds.waypoints.length :=
            (hspec ds.waypoints.length).1 (fun c hcm => hnotown c hcm)
          rw [hset3, h2, addWaypointBase_wpAt_new]
          rfl
        · intro j hj
          have hjne : j ≠ ds.waypoints.length := Nat.ne_of_lt hj
          have hmodsame : ds3.wpAt j = ds2.wpAt j := hother3 j hjne
          constructor
          · intro hne
            rw [hmodsame, (hspec j).1 hne, addWaypointBase_wpAt_old ds lat lon j hj]
          · intro co hco hcoj
            rw [hmodsame, (hspec j).2 co hco hcoj,
              addWaypointBase_wpAt_old ds lat lon j hj]
  · cases h

/-- The dataset produced by inserting a waypoint at (5, 5) into `dsPair`:
the new waypoint `C` is wired to its nearest neighbor `B` (distance 9 under
`dL1`) and `B` receives the reciprocal connection. -/
def dsPairAdded : Dataset :=
  ⟨[wPairA, ⟨0, 1, "B", encode 0 1 8, [⟨9, 2⟩]⟩,
    ⟨5, 5, "C", encode 5 5 8, [⟨9, 1⟩]⟩],
   dsPair.geohash_index.insert (encode 5 5 8) 2⟩

unseal Rat.add Rat.sub Rat.mul Rat.inv in
/-- Witness for claim C6: inserting (5, 5) into the two-waypoint dataset
(where waypoint 0 has one connection and the generated label `C` is fresh)
completes and satisfies the amended claim. -/
theorem claim6_witness :
    (0 < dsPair.waypoints.length ∧ 0 < (dsPair.wpAt 0).connections.length ∧
      (∀ x ∈ dsPair.waypoints, x.label ≠ (Dataset.newWaypoint dsPair 5 5).label) ∧
      Dataset.add_new_waypoint dL1 30 dsPair 5 5 = some (dsPairAdded, 2)) ∧
    ((2 : Nat) = dsPair.waypoints.length ∧
      dsPairAdded.waypoints.length = dsPair.waypoints.length + 1 ∧
      ∃ conns,
        (Dataset.addWaypointBase dsPair 5 5).get_knn_geohash dL1 30
          (Dataset.newWaypoint dsPair 5 5) (dsPair.wpAt 0).connections.length =
          .ok conns ∧
        (dsPairAdded.wpAt 2).connections = conns ∧
        ∀ j, j < dsPair.waypoints.length →
          ((∀ co ∈ conns, co.waypoint_index ≠ j) →
            dsPairAdded.wpAt j = dsPair.wpAt j) ∧
          (∀ co ∈ conns, co.waypoint_index = j →
            dsPairAdded.wpAt j = { dsPair.wpAt j with
              connections := (dsPair.wpAt j).connections ++ [⟨co.distance, 2⟩] })) :=
  ⟨⟨by decide, by decide, by decide, by rfl⟩,
    claim6_add_waypoint_wiring dL1 30 dsPair dsPairAdded 5 5 2 (by decide)
      (by decide) (by decide) (by rfl)⟩

/-! ## A* infrastructure: properties of the minimum-extraction pop -/

/-- `minEntry` returns a member of the candidate list. -/
theorem minEntry_mem : ∀ (es : List (ℚ × Nat)) (e : ℚ × Nat),
    minEntry e es ∈ e :: es := by
  intro es
  induction es with
  | nil => intro e; exact List.mem_cons_self e []
  | cons x xs ih =>
      intro e
      rw [minEntry]
      rcases List.mem_cons.mp (ih (if x.1 < e.1 then x else e)) with h | h
      · rw [h]
        by_cases hx : x.1 < e.1
        · rw [if_pos hx]
          exact List.mem_cons_of_mem e (List.mem_cons_self x xs)
        · rw [if_neg hx]
          exact List.mem_cons_self e (x :: xs)
      · exact List.mem_cons_of_mem e (List.mem_cons_of_mem x h)

/-- `minEntry` returns an entry of minimal f-score. -/
theorem minEntry_min : ∀ (es : List (ℚ × Nat)) (e : ℚ × Nat),
    ∀ x ∈ e :: es, (minEntry e es).1 ≤ x.1 := by
  intro es
  induction es with
  | nil =>
      intro e x hx
      rcases List.mem_cons.mp hx with rfl | hx
      · exact le_refl _
      · cases hx
  | cons y ys ih =>
      intro e x hx
      rw [minEntry]
      have hle : (minEntry (if y.1 < e.1 then y else e) ys).1 ≤
          (if y.1 < e.1 then y else e).1 :=
        ih _ _ (List.mem_cons_self _ ys)
      have he : (if y.1 < e.1 then y else e).1 ≤ e.1 := by
        by_cases hy : y.1 < e.1
        · rw [if_pos hy]; exact le_of_lt hy
        · rw [if_neg hy]
      have hy2 : (if y.1 < e.1 then y else e).1 ≤ y.1 := by
        by_cases hy : y.1 < e.1
        · rw [if_pos hy]
        · rw [if_neg hy]; exact le_of_not_lt hy
      rcases List.mem_cons.mp hx with rfl | hx
      · exact le_trans hle he
      · rcases List.mem_cons.mp hx with rfl | hx
        · exact le_trans hle hy2
        · exact ih _ x (List.mem_cons_of_mem _ hx)

/-- Removing one occurrence keeps a sublist of the original entries. -/
theorem removeOne_subset (x : ℚ × Nat) :
    ∀ l : List (ℚ × Nat), ∀ y ∈ removeOne x l, y ∈ l := by
  intro l
  induction l with
  | nil => intro y hy; cases hy
  | cons z zs ih =>
      intro y hy
      rw [removeOne] at hy
      by_cases hz : z = x
      · rw [if_pos hz] at hy
        exact List.mem_cons_of_mem z hy
      · rw [if_neg hz] at hy
        rcases List.mem_cons.mp hy with rfl | hy
        · exact List.mem_cons_self y zs
        · exact List.mem_cons_of_mem z (ih y hy)

/-- Every original entry either is the removed value or survives. -/
theorem mem_removeOne_or (x : ℚ × Nat) :
    ∀ l : List (ℚ × Nat), ∀ y ∈ l, y = x ∨ y ∈ removeOne x l := by
  intro l
  induction l with
  | nil => intro y hy; cases hy
  | cons z zs ih =>
      intro y hy
      rw [removeOne]
      by_cases hz : z = x
      · rw [if_pos hz]
        rcases List.mem_cons.mp hy with rfl | hy
        · exact Or.inl hz
        · exact Or.inr hy
      · rw [if_neg hz]
        rcases List.mem_cons.mp hy with rfl | hy
        · exact Or.inr (List.mem_cons_self y _)
        · rcases ih y hy with h | h
          · exact Or.inl h
          · exact Or.inr (List.mem_cons_of_mem z h)

/-- Specification of `popMin`: the popped entry is a member of minimal
f-score, the remaining entries are original entries, and every original
entry other than (one occurrence of) the popped value survives. -/
theorem popMin_spec {l : List (ℚ × Nat)} {e : ℚ × Nat} {rest : List (ℚ × Nat)}
    (h : popMin l = some (e, rest)) :
    e ∈ l ∧ (∀ x ∈ l, e.1 ≤ x.1) ∧ (∀ y ∈ rest, y ∈ l) ∧
    (∀ y ∈ l, y = e ∨ y ∈ rest) := by
  cases l with
  | nil => cases h
  | cons z zs =>
      rw [popMin] at h
      rcases Prod.mk.inj (Option.some.inj h) with ⟨rfl, rfl⟩
      exact ⟨minEntry_mem zs z, minEntry_min zs z,
        removeOne_subset _ _, mem_removeOne_or _ _⟩

/-- `popMin` returns `none` exactly on the empty open set. -/
theorem popMin_none {l : List (ℚ × Nat)} (h : popMin l = none) : l = [] := by
  cases l with
  | nil => rfl
  | cons z zs => cases h

/-! ## Claim C10: waypoint-argument resolution and panic freedom -/

/-- Well-formedness of a dataset as assumed by the panic-freedom claim: the
trie stores only in-bounds indices and every connection targets an in-bounds
index. -/
def DatasetWF (ds : Dataset) : Prop :=
  (∀ i ∈ ds.geohash_index.collect, i < ds.waypoints.length) ∧
  (∀ wq ∈ ds.waypoints, ∀ c ∈ wq.connections,
    c.waypoint_index < ds.waypoints.length)

instance (ds : Dataset) : Decidable (DatasetWF ds) :=
  decidable_of_iff
    ((∀ i ∈ ds.geohash_index.collect, i < ds.waypoints.length) ∧
     (∀ wq ∈ ds.waypoints, ∀ c ∈ wq.connections,
       c.waypoint_index < ds.waypoints.length)) Iff.rfl

/-- `get_surrounding_cells` succeeds on every alphabet string (empty
included). -/
theorem get_surrounding_cells_isSome (key : List Char)
    (halpha : ∀ c ∈ key, c ∈ base32ghs) :
    ∃ cells, get_surrounding_cells key = some cells := by
  by_cases hkey : key = []
  · subst hkey
    exact ⟨[[], [], [], [], [], [], [], []], by rfl⟩
  · rcases get_adjacent_cell_spec .north key hkey halpha with ⟨cN, hN, hNlen, hNa, _⟩
    rcases get_adjacent_cell_spec .east key hkey halpha with ⟨cE, hE, _, _, _⟩
    rcases get_adjacent_cell_spec .south key hkey halpha with ⟨cS, hS, hSlen, hSa, _⟩
    rcases get_adjacent_cell_spec .west key hkey halpha with ⟨cW, hW, _, _, _⟩
    have hNne : cN ≠ [] := by
      intro hh; rw [hh] at hNlen; exact hkey (List.eq_nil_of_length_eq_zero hNlen.symm)
    have hSne : cS ≠ [] := by
      intro hh; rw [hh] at hSlen; exact hkey (List.eq_nil_of_length_eq_zero hSlen.symm)
    rcases get_adjacent_cell_spec .east cN hNne hNa with ⟨cNE, hNE, _, _, _⟩
    rcases get_adjacent_cell_spec .west cN hNne hNa with ⟨cNW, hNW, _, _, _⟩
    rcases get_adjacent_cell_spec .east cS hSne hSa with ⟨cSE, hSE, _, _, _⟩
    rcases get_adjacent_cell_spec .west cS hSne hSa with ⟨cSW, hSW, _, _, _⟩
    exact ⟨[cNE, cNW, cN, cE, cSE, cSW, cS, cW],
      by simp [get_surrounding_cells, hN, hE, hS, hW, hNE, hNW, hSE, hSW]⟩

/-- `knnVisit` succeeds on every in-bounds candidate index. -/
theorem knnVisit_isSome (d : Waypoint → Waypoint → ℚ) (ds : Dataset)
    (w : Waypoint) (st : List Connection × List Nat) (idx : Nat)
    (hidx : idx < ds.waypoints.length) :
    ∃ st1, Dataset.knnVisit d ds w st idx = some st1 := by
  rw [Dataset.knnVisit]
  by_cases hvis : idx ∈ st.2
  · exact ⟨st, if_pos hvis⟩
  · rw [if_neg hvis, List.getElem?_eq_getElem hidx]
    exact ⟨_, rfl⟩

/-- `knnVisitAll` succeeds when every candidate index is in bounds. -/
theorem knnVisitAll_isSome (d : Waypoint → Waypoint → ℚ) (ds : Dataset)
    (w : Waypoint) :
    ∀ (l : List Nat) (st : List Connection × List Nat),
      (∀ x ∈ l, x < ds.waypoints.length) →
      ∃ st1, Dataset.knnVisitAll d ds w l st = some st1 := by
  intro l
  induction l with
  | nil => intro st _; exact ⟨st, rfl⟩
  | cons i rest ih =>
      intro st hl
      rcases knnVisit_isSome d ds w st i (hl i (List.mem_cons_self i rest))
        with ⟨st2, hst2⟩
      rcases ih st2 (fun x hx => hl x (List.mem_cons_of_mem i hx)) with ⟨st1, hst1⟩
      exact ⟨st1, by simp only [Dataset.knnVisitAll, hst2]; exact hst1⟩

/-- Candidate indices returned by the spatial search are trie values. -/
theorem search_geohash_valid {ds : Dataset} (hwf : DatasetWF ds) (g : List Char) :
    ∀ x ∈ ds.search_geohash g, x < ds.waypoints.length := by
  intro x hx
  exact hwf.1 x (Trie.getAllWithPfx_subset_collect g ds.geohash_index x hx)

/-- `visitCells` succeeds on a well-formed dataset. -/
theorem visitCells_isSome (d : Waypoint → Waypoint → ℚ) {ds : Dataset}
    (hwf : DatasetWF ds) (w : Waypoint) :
    ∀ (cells : List (List Char)) (st : List Connection × List Nat),
      ∃ st1, Dataset.visitCells d ds w cells st = some st1 := by
  intro cells
  induction cells with
  | nil => intro st; exact ⟨st, rfl⟩
  | cons cell rest ih =>
      intro st
      rcases knnVisitAll_isSome d ds w (ds.search_geohash cell) st
        (search_geohash_valid hwf cell) with ⟨st2, hst2⟩
      rcases ih st2 with ⟨st1, hst1⟩
      exact ⟨st1, by simp only [Dataset.visitCells, hst2]; exact hst1⟩

/-- The ring-expansion loop never panics on a well-formed dataset when the
query geohash is over the alphabet. -/
theorem knnLoop_no_panic (d : Waypoint → Waypoint → ℚ) {ds : Dataset}
    (hwf : DatasetWF ds) (w : Waypoint) (k : Nat) :
    ∀ (fuel : Nat) (key : List Char) (st : List Connection × List Nat),
      (∀ c ∈ key, c ∈ base32ghs) →
      Dataset.knnLoop d ds w k fuel key st ≠ .panicked ∧
      Dataset.knnLoop d ds w k fuel key st ≠ .unwrapPanic := by
  have hfinish : ∀ (key : List Char) (st : List Connection × List Nat),
      (∀ c ∈ key, c ∈ base32ghs) →
      Dataset.knnFinish d ds w k key st ≠ .panicked ∧
      Dataset.knnFinish d ds w k key st ≠ .unwrapPanic := by
    intro key st halpha
    rcases get_surrounding_cells_isSome key halpha with ⟨cells, hcells⟩
    rcases visitCells_isSome d hwf w cells st with ⟨st1, hst1⟩
    simp only [Dataset.knnFinish, hcells, hst1]
    exact ⟨(by intro hh; cases hh), (by intro hh; cases hh)⟩
  intro fuel
  induction fuel with
  | zero =>
      intro key st halpha
      rw [Dataset.knnLoop]
      by_cases hlen : st.1.length < k
      · rw [if_pos hlen]
        exact ⟨(by intro hh; cases hh), (by intro hh; cases hh)⟩
      · rw [if_neg hlen]
        exact hfinish key st halpha
  | succ f ih =>
      intro key st halpha
      rw [Dataset.knnLoop]
      by_cases hlen : st.1.length < k
      · rw [if_pos hlen]
        rcases knnVisitAll_isSome d ds w (ds.search_geohash key.dropLast) st
          (search_geohash_valid hwf key.dropLast) with ⟨st1, hst1⟩
        rw [hst1]
        exact ih key.dropLast st1
          (fun c hc => halpha c (List.dropLast_subset key hc))
      · rw [if_neg hlen]
        exact hfinish key st halpha

/-- Well-formedness of an A* state: every open entry holds an in-bounds
index with a recorded g-score. -/
def AStateWF (ds : Dataset) (s : AState) : Prop :=
  ∀ e ∈ s.openSet, e.2 < ds.waypoints.length ∧ (s.gScores e.2).isSome

/-- A relaxation step on an in-bounds connection from a scored waypoint
always succeeds, preserves state well-formedness, and never drops a g-score. -/
theorem relaxStep_wf {d : Waypoint → Waypoint → ℚ} {ds : Dataset}
    {goal : Waypoint} {u : Nat} {s : AState} {c : Connection}
    (hwf : AStateWF ds s) (hu : (s.gScores u).isSome)
    (hc : c.waypoint_index < ds.waypoints.length) :
    ∃ s1, Dataset.relaxStep d ds goal u s c = some s1 ∧ AStateWF ds s1 ∧
      ∀ x, (s.gScores x).isSome → (s1.gScores x).isSome := by
  rw [Dataset.relaxStep]
  cases hgu : s.gScores u with
  | none => rw [hgu] at hu; cases hu
  | some gu =>
      simp only []
      by_cases himp : (match s.gScores c.waypoint_index with
        | none => true
        | some gv => decide (gu + c.distance < gv)) = true
      · rw [if_pos himp, List.getElem?_eq_getElem hc]
        refine ⟨_, rfl, ?_, ?_⟩
        · intro e he
          rcases List.mem_cons.mp he with rfl | he
          · exact ⟨hc, by simp⟩
          · rcases hwf e he with ⟨h1, h2⟩
            refine ⟨h1, ?_⟩
            show (if e.2 = c.waypoint_index then some (gu + c.distance)
              else s.gScores e.2).isSome
            by_cases hev : e.2 = c.waypoint_index
            · rw [if_pos hev]; rfl
            · rw [if_neg hev]; exact h2
        · intro x hx
          show (if x = c.waypoint_index then some (gu + c.distance)
            else s.gScores x).isSome
          by_cases hxv : x = c.waypoint_index
          · rw [if_pos hxv]; rfl
          · rw [if_neg hxv]; exact hx
      · rw [if_neg himp]
        exact ⟨s, rfl, hwf, fun x hx => hx⟩

/-- Relaxing a list of in-bounds connections always succeeds and preserves
well-formedness. -/
theorem relaxAll_wf {d : Waypoint → Waypoint → ℚ} {ds : Dataset}
    {goal : Waypoint} {u : Nat} :
    ∀ (conns : List Connection) (s : AState), AStateWF ds s →
      (s.gScores u).isSome →
      (∀ c ∈ conns, c.waypoint_index < ds.waypoints.length) →
      ∃ s1, Dataset.relaxAll d ds goal u conns s = some s1 ∧ AStateWF ds s1 := by
  intro conns
  induction conns with
  | nil => intro s hwf _ _; exact ⟨s, rfl, hwf⟩
  | cons c rest ih =>
      intro s hwf hu hvalid
      rcases relaxStep_wf hwf hu (hvalid c (List.mem_cons_self c rest))
        with ⟨s2, hs2, hwf2, hmono⟩
      rcases ih s2 hwf2 (hmono u hu)
        (fun x hx => hvalid x (List.mem_cons_of_mem c hx)) with ⟨s1, hs1, hwf1⟩
      refine ⟨s1, ?_, hwf1⟩
      have hshape : Dataset.relaxAll d ds goal u (c :: rest) s =
          match Dataset.relaxStep d ds goal u s c with
          | none => none
          | some st => Dataset.relaxAll d ds goal u rest st := rfl
      rw [hshape, hs2]
      exact hs1

/-- The A* main loop never panics from a well-formed state on a well-formed
dataset. -/
theorem astarLoop_no_panic {d : Waypoint → Waypoint → ℚ} {ds : Dataset}
    (hwf : DatasetWF ds) (goal : Waypoint) :
    ∀ (fuel : Nat) (s : AState), AStateWF ds s →
      Dataset.astarLoop d ds goal fuel s ≠ .panicked ∧
      Dataset.astarLoop d ds goal fuel s ≠ .unwrapPanic := by
  intro fuel
  induction fuel with
  | zero =>
      intro s _
      exact ⟨(by intro hh; cases hh), (by intro hh; cases hh)⟩
  | succ f ih =>
      intro s hswf
      rw [Dataset.astarLoop]
      cases hpop : popMin s.openSet with
      | none => exact ⟨(by intro hh; cases hh), (by intro hh; cases hh)⟩
      | some er =>
          rcases er with ⟨e, rest⟩
          rcases popMin_spec hpop with ⟨hmem, _, hrest, _⟩
          rcases hswf e hmem with ⟨hlt, hgsome⟩
          simp only [List.getElem?_eq_getElem hlt]
          by_cases hlab : (ds.waypoints[e.2]).label = goal.label
          · rw [if_pos hlab]
            cases Dataset.reconstruct s.cameFrom (ds.waypoints.length + 1) e.2 [e.2] with
            | none => exact ⟨(by intro hh; cases hh), (by intro hh; cases hh)⟩
            | some p => exact ⟨(by intro hh; cases hh), (by intro hh; cases hh)⟩
          · rw [if_neg hlab]
            have hswf2 : AStateWF ds { s with openSet := rest } := by
              intro e2 he2
              exact hswf e2 (hrest e2 he2)
            rcases relaxAll_wf (ds.waypoints[e.2]).connections
              { s with openSet := rest } hswf2 hgsome
              (fun c hcm => hwf.2 ds.waypoints[e.2]
                (List.getElem_mem hlt) c hcm) with ⟨s1, hs1, hwf1⟩
            rw [hs1]
            exact ih s1 hwf1

/-- If some waypoint carries the queried label, `get_waypoint_index`
resolves. -/
theorem get_waypoint_index_of_present {ds : Dataset} {w : Waypoint}
    (h : ∃ x ∈ ds.waypoints, x.label = w.label) :
    ∃ i, ds.get_waypoint_index w = some i := by
  rcases h with ⟨x, hx, hlab⟩
  rw [Dataset.get_waypoint_index]
  cases hf : ds.waypoints.findIdx? (fun y => y.label = w.label) with
  | none =>
      have hfx := (List.findIdx?_eq_none_iff.mp hf) x hx
      simp [hlab] at hfx
  | some i => exact ⟨i, rfl⟩

/-- If no waypoint carries the queried label, `get_waypoint_index` is
`none` (the `.unwrap()` in the callers panics). -/
theorem get_waypoint_index_of_absent {ds : Dataset} {w : Waypoint}
    (h : ∀ x ∈ ds.waypoints, x.label ≠ w.label) :
    ds.get_waypoint_index w = none := by
  rw [Dataset.get_waypoint_index, List.findIdx?_eq_none_iff]
  intro x hx
  simp [h x hx]

/-- **C10** (implicit claim, src/lib.rs lines 416-420, 532-536, 654-658):
`get_knn_geohash` and `get_shortest_route` resolve their waypoint argument
with `get_waypoint_index(..).unwrap()`.  On a well-formed dataset and a
waypoint whose stored geohash is over the base-32 alphabet: if some dataset
waypoint carries the argument's label, the lookup succeeds and neither
operation ever panics (for any fuel, neither the unwrap panic nor any other
panic is reachable); if no dataset waypoint carries the label, both
operations hit the unwrap panic. -/
theorem claim10_unwrap_safety (d : Waypoint → Waypoint → ℚ) {ds : Dataset}
    (hwf : DatasetWF ds) (w goal : Waypoint) (k : Nat)
    (halpha : ∀ c ∈ w.geohash, c ∈ base32ghs) :
    ((∃ x ∈ ds.waypoints, x.label = w.label) →
      (∃ i, ds.get_waypoint_index w = some i) ∧
      (∀ fuel, Dataset.get_knn_geohash d fuel ds w k ≠ .unwrapPanic ∧
               Dataset.get_knn_geohash d fuel ds w k ≠ .panicked) ∧
      (∀ fuel, Dataset.get_shortest_route d fuel ds w goal ≠ .unwrapPanic ∧
               Dataset.get_shortest_route d fuel ds w goal ≠ .panicked)) ∧
    ((∀ x ∈ ds.waypoints, x.label ≠ w.label) →
      (∀ fuel, Dataset.get_knn_geohash d fuel ds w k = .unwrapPanic) ∧
      (∀ fuel, Dataset.get_shortest_route d fuel ds w goal = .unwrapPanic)) := by
  constructor
  · intro hpresent
    rcases get_waypoint_index_of_present hpresent with ⟨i, hi⟩
    refine ⟨⟨i, hi⟩, ?_, ?_⟩
    · intro fuel
      simp only [Dataset.get_knn_geohash, hi]
      have hL := knnLoop_no_panic d hwf w k fuel w.geohash ([], [i]) halpha
      exact ⟨hL.2, hL.1⟩
    · intro fuel
      simp only [Dataset.get_shortest_route, hi]
      have hinit : AStateWF ds
          { openSet := [(0, i)], cameFrom := fun _ => none,
            gScores := fun x => if x = i then some 0 else none } := by
        intro e he
        rcases List.mem_singleton.mp he with rfl
        obtain ⟨hlt, _⟩ := get_waypoint_index_spec ds w i hi
        exact ⟨hlt, by simp⟩
      have hA := @astarLoop_no_panic d ds hwf goal fuel _ hinit
      exact ⟨hA.2, hA.1⟩
  · intro habsent
    have hnone := get_waypoint_index_of_absent habsent
    constructor
    · intro fuel
      simp only [Dataset.get_knn_geohash, hnone]
    · intro fuel
      simp only [Dataset.get_shortest_route, hnone]

unseal Rat.add Rat.sub Rat.mul Rat.inv in
theorem claim10_witness :
    (∃ x ∈ dsPair.waypoints, x.label = wPairA.label) ∧
    (∃ i, dsPair.get_waypoint_index wPairA = some i) ∧
    Dataset.get_knn_geohash dL1 20 dsPair wPairA 1 ≠ .unwrapPanic ∧
    (∀ x ∈ dsPair.waypoints, x.label ≠ "Z") ∧
    Dataset.get_shortest_route dL1 20 dsPair ⟨3, 3, "Z", [], []⟩ wPairB
      = .unwrapPanic := by
  have hpres : ∃ x ∈ dsPair.waypoints, x.label = wPairA.label :=
    ⟨wPairA, by decide, rfl⟩
  have h1 := (@claim10_unwrap_safety dL1 dsPair (by decide) wPairA wPairB 1
    (by decide)).1 hpres
  have h2 := (@claim10_unwrap_safety dL1 dsPair (by decide)
    ⟨3, 3, "Z", [], []⟩ wPairB 1 (by decide)).2 (by decide)
  exact ⟨hpres, h1.1, (h1.2.1 20).1, by decide, h2.2 20⟩

/-! ## Claims C2 and C3: A* soundness, optimality and the no-route outcome

A directed path along recorded connections is modelled as a chain of
`Connection` values: `IsChain ds a cp b` states that following the
connections of `cp` in order, starting at index `a`, traverses recorded
connections of the successive waypoints and ends at index `b`.  Its cost is
the sum of the traversed connections' distances. -/

def IsChain (ds : Dataset) : Nat → List Connection → Nat → Prop
  | a, [], b => a = b
  | a, c :: rest, b =>
      c ∈ (ds.wpAt a).connections ∧ IsChain ds c.waypoint_index rest b

def chainCost : List Connection → ℚ
  | [] => 0
  | c :: rest => c.distance + chainCost rest

/-- `wpAt` agrees with list indexing in bounds. -/
theorem wpAt_eq_getElem (ds : Dataset) (i : Nat) (h : i < ds.waypoints.length) :
    ds.wpAt i = ds.waypoints[i] :=
  List.getD_eq_getElem ds.waypoints default h

theorem IsChain.append {ds : Dataset} :
    ∀ {cp1 : List Connection} {a b : Nat} {cp2 : List Connection} {z : Nat},
      IsChain ds a cp1 b → IsChain ds b cp2 z → IsChain ds a (cp1 ++ cp2) z
  | [], _, _, _, _, h1, h2 => by
      rw [show IsChain ds _ [] _ = (_ = _) from rfl] at h1
      subst h1; exact h2
  | c :: rest, a, b, cp2, z, h1, h2 => by
      rcases h1 with ⟨hc, hrest⟩
      exact ⟨hc, IsChain.append hrest h2⟩

theorem chainCost_append :
    ∀ (cp1 cp2 : List Connection),
      chainCost (cp1 ++ cp2) = chainCost cp1 + chainCost cp2
  | [], cp2 => by rw [List.nil_append, chainCost]; ring
  | c :: rest, cp2 => by
      rw [List.cons_append, chainCost, chainCost, chainCost_append rest cp2]
      ring

/-- The endpoints of a chain from an in-bounds index stay in bounds, and the
chain's cost dominates the straight-line distance of its endpoints, provided
connection distances are the `d`-distances of their endpoints (`Hw`) and `d`
satisfies `d a a = 0` and the triangle inequality.  This is exactly the
admissibility argument of the specification. -/
theorem chain_admissible {d : Waypoint → Waypoint → ℚ} {ds : Dataset}
    (Hrefl : ∀ a, d a a = 0)
    (Htri : ∀ a b z, d a z ≤ d a b + d b z)
    (Hw : ∀ wq ∈ ds.waypoints, ∀ c ∈ wq.connections,
      c.waypoint_index < ds.waypoints.length ∧
      c.distance = d wq (ds.wpAt c.waypoint_index)) :
    ∀ (cp : List Connection) (a b : Nat), a < ds.waypoints.length →
      IsChain ds a cp b →
      b < ds.waypoints.length ∧ d (ds.wpAt a) (ds.wpAt b) ≤ chainCost cp
  | [], a, b, ha, hch => by
      rw [show IsChain ds a [] b = (a = b) from rfl] at hch
      subst hch
      rw [chainCost, Hrefl]
      exact ⟨ha, le_refl 0⟩
  | c :: rest, a, b, ha, hch => by
      rcases hch with ⟨hc, hrest⟩
      have hmem : ds.wpAt a ∈ ds.waypoints := by
        rw [wpAt_eq_getElem ds a ha]; exact List.getElem_mem ha
      rcases Hw (ds.wpAt a) hmem c hc with ⟨hlt, hdist⟩
      rcases chain_admissible Hrefl Htri Hw rest c.waypoint_index b hlt hrest
        with ⟨hb, hle⟩
      refine ⟨hb, ?_⟩
      rw [chainCost]
      calc d (ds.wpAt a) (ds.wpAt b)
      _ ≤ d (ds.wpAt a) (ds.wpAt c.waypoint_index) +
            d (ds.wpAt c.waypoint_index) (ds.wpAt b) := Htri _ _ _
      _ ≤ d (ds.wpAt a) (ds.wpAt c.waypoint_index) + chainCost rest := by
            exact add_le_add_left hle _
      _ = c.distance + chainCost rest := by rw [hdist]

/-- Chain costs are non-negative when connection distances are
`d`-distances and `d` is non-negative. -/
theorem chainCost_nonneg {d : Waypoint → Waypoint → ℚ} {ds : Dataset}
    (Hnn : ∀ a b, 0 ≤ d a b)
    (Hw : ∀ wq ∈ ds.waypoints, ∀ c ∈ wq.connections,
      c.waypoint_index < ds.waypoints.length ∧
      c.distance = d wq (ds.wpAt c.waypoint_index)) :
    ∀ (cp : List Connection) (a b : Nat), a < ds.waypoints.length →
      IsChain ds a cp b → 0 ≤ chainCost cp
  | [], a, b, _, _ => le_refl 0
  | c :: rest, a, b, ha, hch => by
      rcases hch with ⟨hc, hrest⟩
      have hmem : ds.wpAt a ∈ ds.waypoints := by
        rw [wpAt_eq_getElem ds a ha]; exact List.getElem_mem ha
      rcases Hw (ds.wpAt a) hmem c hc with ⟨hlt, hdist⟩
      have h2 := chainCost_nonneg Hnn Hw rest c.waypoint_index b hlt hrest
      rw [chainCost]
      have h3 : 0 ≤ c.distance := by rw [hdist]; exact Hnn _ _
      linarith

/-- The index trace of a chain ends at the chain's endpoint. -/
theorem chain_trace_getLast {ds : Dataset} :
    ∀ (cp : List Connection) (a b : Nat), IsChain ds a cp b →
      (a :: cp.map Connection.waypoint_index).getLast? = some b
  | [], a, b, hch => by
      rw [show IsChain ds a [] b = (a = b) from rfl] at hch
      subst hch; rfl
  | c :: rest, a, b, hch => by
      rcases hch with ⟨_, hrest⟩
      have h2 := chain_trace_getLast rest c.waypoint_index b hrest
      rw [List.map_cons, List.getLast?_cons_cons]
      exact h2

/-- The index trace of a chain has consecutive entries linked by recorded
connections. -/
theorem chain_trace_chain' {ds : Dataset} :
    ∀ (cp : List Connection) (a b : Nat), IsChain ds a cp b →
      List.Chain' (fun x y => ∃ c ∈ (ds.wpAt x).connections,
        c.waypoint_index = y) (a :: cp.map Connection.waypoint_index)
  | [], a, b, _ => List.chain'_singleton a
  | c :: rest, a, b, hch => by
      rcases hch with ⟨hc, hrest⟩
      have h2 := chain_trace_chain' rest c.waypoint_index b hrest
      rw [List.map_cons]
      exact List.Chain'.cons ⟨c, hc, rfl⟩ h2

/-- Core loop invariants of the A* state: well-formed open set, start scored
zero, non-negative monotone g-scores over in-bounds indices, predecessor
links backed by recorded connections whose relaxation inequality holds,
start as the only scored root, every scored goal-labelled index still open,
and every open entry's f-score dominating its index's current g-score. -/
structure AInvCore (d : Waypoint → Waypoint → ℚ) (ds : Dataset)
    (goal : Waypoint) (si : Nat) (s : AState) : Prop where
  wf : AStateWF ds s
  gsi : s.gScores si = some 0
  nonneg : ∀ u gu, s.gScores u = some gu → 0 ≤ gu
  inBounds : ∀ u, (s.gScores u).isSome → u < ds.waypoints.length
  edgeInv : ∀ v u, s.cameFrom v = some u →
    ∃ c ∈ (ds.wpAt u).connections, c.waypoint_index = v ∧
      ∃ gu gv, s.gScores u = some gu ∧ s.gScores v = some gv ∧
        gu + c.distance ≤ gv
  cfRoot : ∀ u, (s.gScores u).isSome → s.cameFrom u = none → u = si
  goalOpen : ∀ u, (s.gScores u).isSome → (ds.wpAt u).label = goal.label →
    ∃ e ∈ s.openSet, e.2 = u
  fBound : ∀ e ∈ s.openSet, ∃ gu, s.gScores e.2 = some gu ∧ gu ≤ e.1

/-- A scored index is either still on the frontier — an open entry whose
f-score is bounded by its g-score plus the heuristic (or by zero, for the
initial entry) — or fully relaxed: every outgoing connection's target is
scored at most g plus the edge distance. -/
def OpenOrClosed (d : Waypoint → Waypoint → ℚ) (ds : Dataset)
    (goal : Waypoint) (s : AState) (x : Nat) : Prop :=
  (∃ e ∈ s.openSet, e.2 = x ∧ ∃ gx, s.gScores x = some gx ∧
    (e.1 ≤ gx + d (ds.wpAt x) goal ∨ e.1 ≤ 0)) ∨
  (∃ gx, s.gScores x = some gx ∧ ∀ c ∈ (ds.wpAt x).connections,
    ∃ gv, s.gScores c.waypoint_index = some gv ∧ gv ≤ gx + c.distance)

/-- The full A* loop invariant. -/
def AInv (d : Waypoint → Waypoint → ℚ) (ds : Dataset) (goal : Waypoint)
    (si : Nat) (s : AState) : Prop :=
  AInvCore d ds goal si s ∧
  ∀ x, (s.gScores x).isSome → OpenOrClosed d ds goal s x

/-- One relaxation step from a scored in-bounds index along one of its
recorded connections: it succeeds, preserves the core invariants, leaves the
source's g-score unchanged, closes the relaxed edge, only lowers g-scores,
only adds open entries, preserves frontier-or-closed status of previously
scored indices, and gives any newly scored index frontier status. -/
theorem relaxStep_inv {d : Waypoint → Waypoint → ℚ} {ds : Dataset}
    {goal : Waypoint} {si : Nat}
    (Hnn : ∀ a b, 0 ≤ d a b)
    (Hw : ∀ wq ∈ ds.waypoints, ∀ c ∈ wq.connections,
      c.waypoint_index < ds.waypoints.length ∧
      c.distance = d wq (ds.wpAt c.waypoint_index))
    {s : AState} {u : Nat} {gu : ℚ} {c : Connection}
    (hcore : AInvCore d ds goal si s)
    (hu : u < ds.waypoints.length)
    (hgu : s.gScores u = some gu)
    (hc : c ∈ (ds.wpAt u).connections) :
    ∃ s1, Dataset.relaxStep d ds goal u s c = some s1 ∧
      AInvCore d ds goal si s1 ∧
      s1.gScores u = some gu ∧
      (∃ gv, s1.gScores c.waypoint_index = some gv ∧ gv ≤ gu + c.distance) ∧
      (∀ x gx, s.gScores x = some gx →
        ∃ gx', s1.gScores x = some gx' ∧ gx' ≤ gx) ∧
      (∀ e ∈ s.openSet, e ∈ s1.openSet) ∧
      (∀ x, (s.gScores x).isSome → OpenOrClosed d ds goal s x →
        OpenOrClosed d ds goal s1 x) ∧
      (∀ x, (s1.gScores x).isSome →
        (s.gScores x).isSome ∨ OpenOrClosed d ds goal s1 x) := by
  have humem : ds.wpAt u ∈ ds.waypoints := by
    rw [wpAt_eq_getElem ds u hu]; exact List.getElem_mem hu
  rcases Hw (ds.wpAt u) humem c hc with ⟨hvlt, hdist⟩
  have hdnn : 0 ≤ c.distance := by rw [hdist]; exact Hnn _ _
  have hgunn : 0 ≤ gu := hcore.nonneg u gu hgu
  rw [Dataset.relaxStep, hgu]
  simp only []
  by_cases himp : (match s.gScores c.waypoint_index with
    | none => true
    | some gv => decide (gu + c.distance < gv)) = true
  · -- improvement: the state is rewritten at v := c.waypoint_index
    rw [if_pos himp, List.getElem?_eq_getElem hvlt]
    have hvne : c.waypoint_index ≠ si := by
      intro hvsi
      rw [hvsi] at himp
      rw [hcore.gsi] at himp
      have : gu + c.distance < 0 := of_decide_eq_true himp
      linarith
    have hune : u ≠ c.waypoint_index := by
      intro huv
      rw [← huv, hgu] at himp
      have : gu + c.distance < gu := of_decide_eq_true himp
      linarith
    refine ⟨_, rfl, ?_, ?_, ?_, ?_, ?_, ?_, ?_⟩
    · constructor
      · -- wf
        intro e he
        rcases List.mem_cons.mp he with rfl | he
        · exact ⟨hvlt, by simp⟩
        · rcases hcore.wf e he with ⟨h1, h2⟩
          refine ⟨h1, ?_⟩
          show (if e.2 = c.waypoint_index then some (gu + c.distance)
            else s.gScores e.2).isSome
          by_cases hev : e.2 = c.waypoint_index
          · rw [if_pos hev]; rfl
          · rw [if_neg hev]; exact h2
      · -- gsi
        show (if si = c.waypoint_index then some (gu + c.distance)
          else s.gScores si) = some 0
        rw [if_neg (fun h => hvne h.symm), hcore.gsi]
      · -- nonneg
        intro x gx hx
        have hx' : (if x = c.waypoint_index then some (gu + c.distance)
            else s.gScores x) = some gx := hx
        by_cases hxv : x = c.waypoint_index
        · rw [if_pos hxv] at hx'
          rcases Option.some.inj hx' with rfl
          linarith
        · rw [if_neg hxv] at hx'
          exact hcore.nonneg x gx hx'
      · -- inBounds
        intro x hx
        have hx' : (if x = c.waypoint_index then some (gu + c.distance)
            else s.gScores x).isSome := hx
        by_cases hxv : x = c.waypoint_index
        · rw [hxv]; exact hvlt
        · rw [if_neg hxv] at hx'
          exact hcore.inBounds x hx'
      · -- edgeInv
        intro v' u' hcf
        have hcf' : (if v' = c.waypoint_index then some u
            else s.cameFrom v') = some u' := hcf
        by_cases hv'v : v' = c.waypoint_index
        · rw [if_pos hv'v] at hcf'
          have huu : u' = u := (Option.some.inj hcf').symm
          subst huu
          refine ⟨c, hc, hv'v.symm, gu, gu + c.distance, ?_, ?_, le_refl _⟩
          · show (if u' = c.waypoint_index then some (gu + c.distance)
              else s.gScores u') = some gu
            rw [if_neg hune, hgu]
          · show (if v' = c.waypoint_index then some (gu + c.distance)
              else s.gScores v') = some (gu + c.distance)
            rw [if_pos hv'v]
        · rw [if_neg hv'v] at hcf'
          rcases hcore.edgeInv v' u' hcf' with
            ⟨c', hc', hcw, gu', gv', hgu', hgv', hle⟩
          by_cases hu'v : u' = c.waypoint_index
          · refine ⟨c', hc', hcw, gu + c.distance, gv', ?_, ?_, ?_⟩
            · show (if u' = c.waypoint_index then some (gu + c.distance)
                else s.gScores u') = some (gu + c.distance)
              rw [if_pos hu'v]
            · show (if v' = c.waypoint_index then some (gu + c.distance)
                else s.gScores v') = some gv'
              rw [if_neg hv'v, hgv']
            · have himp' : gu + c.distance < gu' := by
                rw [hu'v] at hgu'
                rcases hmatch : s.gScores c.waypoint_index with _ | gv0
                · rw [hmatch] at hgu'; cases hgu'
                · rw [hmatch] at hgu'
                  rcases Option.some.inj hgu' with rfl
                  rw [hmatch] at himp
                  exact of_decide_eq_true himp
              linarith
          · refine ⟨c', hc', hcw, gu', gv', ?_, ?_, hle⟩
            · show (if u' = c.waypoint_index then some (gu + c.distance)
                else s.gScores u') = some gu'
              rw [if_neg hu'v, hgu']
            · show (if v' = c.waypoint_index then some (gu + c.distance)
                else s.gScores v') = some gv'
              rw [if_neg hv'v, hgv']
      · -- cfRoot
        intro x hx hcf
        have hx' : (if x = c.waypoint_index then some (gu + c.distance)
            else s.gScores x).isSome := hx
        have hcf' : (if x = c.waypoint_index then some u
            else s.cameFrom x) = none := hcf
        by_cases hxv : x = c.waypoint_index
        · rw [if_pos hxv] at hcf'
          cases hcf'
        · rw [if_neg hxv] at hx' hcf'
          exact hcore.cfRoot x hx' hcf'
      · -- goalOpen
        intro x hx hlab
        by_cases hxv : x = c.waypoint_index
        · exact ⟨(gu + c.distance + d (ds.waypoints[c.waypoint_index]) goal,
            c.waypoint_index), List.mem_cons_self _ _, hxv.symm⟩
        · have hx' : (if x = c.waypoint_index then some (gu + c.distance)
              else s.gScores x).isSome := hx
          rw [if_neg hxv] at hx'
          rcases hcore.goalOpen x hx' hlab with ⟨e, he, hex⟩
          exact ⟨e, List.mem_cons_of_mem _ he, hex⟩
      · -- fBound
        intro e he
        rcases List.mem_cons.mp he with rfl | he
        · refine ⟨gu + c.distance, ?_, ?_⟩
          · show (if c.waypoint_index = c.waypoint_index then
              some (gu + c.distance) else s.gScores c.waypoint_index) =
              some (gu + c.distance)
            rw [if_pos rfl]
          · show gu + c.distance ≤
              gu + c.distance + d (ds.waypoints[c.waypoint_index]) goal
            have : 0 ≤ d (ds.waypoints[c.waypoint_index]) goal := Hnn _ _
            linarith
        · rcases hcore.fBound e he with ⟨ge, hge, hle⟩
          by_cases hev : e.2 = c.waypoint_index
          · refine ⟨gu + c.distance, ?_, ?_⟩
            · show (if e.2 = c.waypoint_index then some (gu + c.distance)
                else s.gScores e.2) = some (gu + c.distance)
              rw [if_pos hev]
            · have himp' : gu + c.distance < ge := by
                rw [hev] at hge
                rw [hge] at himp
                exact of_decide_eq_true himp
              linarith
          · refine ⟨ge, ?_, hle⟩
            show (if e.2 = c.waypoint_index then some (gu + c.distance)
              else s.gScores e.2) = some ge
            rw [if_neg hev, hge]
    · -- source g unchanged
      show (if u = c.waypoint_index then some (gu + c.distance)
        else s.gScores u) = some gu
      rw [if_neg hune, hgu]
    · -- edge closed
      refine ⟨gu + c.distance, ?_, le_refl _⟩
      show (if c.waypoint_index = c.waypoint_index then
        some (gu + c.distance) else s.gScores c.waypoint_index) =
        some (gu + c.distance)
      rw [if_pos rfl]
    · -- g monotone
      intro x gx hgx
      by_cases hxv : x = c.waypoint_index
      · refine ⟨gu + c.distance, ?_, ?_⟩
        · show (if x = c.waypoint_index then some (gu + c.distance)
            else s.gScores x) = some (gu + c.distance)
          rw [if_pos hxv]
        · rw [hxv] at hgx
          rw [hgx] at himp
          exact le_of_lt (of_decide_eq_true himp)
      · refine ⟨gx, ?_, le_refl gx⟩
        show (if x = c.waypoint_index then some (gu + c.distance)
          else s.gScores x) = some gx
        rw [if_neg hxv, hgx]
    · -- open entries preserved
      intro e he
      exact List.mem_cons_of_mem _ he
    · -- frontier-or-closed preserved
      intro x hx hooc
      by_cases hxv : x = c.waypoint_index
      · left
        refine ⟨(gu + c.distance + d (ds.waypoints[c.waypoint_index]) goal,
          c.waypoint_index), List.mem_cons_self _ _, hxv.symm,
          gu + c.distance, ?_, ?_⟩
        · show (if x = c.waypoint_index then some (gu + c.distance)
            else s.gScores x) = some (gu + c.distance)
          rw [if_pos hxv]
        · left
          rw [hxv, ← wpAt_eq_getElem ds c.waypoint_index hvlt]
      · rcases hooc with ⟨e, he, hex, gx, hgx, hbd⟩ | ⟨gx, hgx, hcl⟩
        · left
          refine ⟨e, List.mem_cons_of_mem _ he, hex, gx, ?_, hbd⟩
          show (if x = c.waypoint_index then some (gu + c.distance)
            else s.gScores x) = some gx
          rw [if_neg hxv, hgx]
        · right
          refine ⟨gx, ?_, ?_⟩
          · show (if x = c.waypoint_index then some (gu + c.distance)
              else s.gScores x) = some gx
            rw [if_neg hxv, hgx]
          · intro c' hc'
            rcases hcl c' hc' with ⟨gv', hgv', hle⟩
            by_cases hcv : c'.waypoint_index = c.waypoint_index
            · refine ⟨gu + c.distance, ?_, ?_⟩
              · show (if c'.waypoint_index = c.waypoint_index then
                  some (gu + c.distance) else s.gScores c'.waypoint_index) =
                  some (gu + c.distance)
                rw [if_pos hcv]
              · have himp' : gu + c.distance < gv' := by
                  rw [hcv] at hgv'
                  rw [hgv'] at himp
                  exact of_decide_eq_true himp
                linarith
            · refine ⟨gv', ?_, hle⟩
              show (if c'.waypoint_index = c.waypoint_index then
                some (gu + c.distance) else s.gScores c'.waypoint_index) =
                some gv'
              rw [if_neg hcv, hgv']
    · -- newly scored indices are on the frontier
      intro x hx
      by_cases hxv : x = c.waypoint_index
      · right
        left
        refine ⟨(gu + c.distance + d (ds.waypoints[c.waypoint_index]) goal,
          c.waypoint_index), List.mem_cons_self _ _, hxv.symm,
          gu + c.distance, ?_, ?_⟩
        · show (if x = c.waypoint_index then some (gu + c.distance)
            else s.gScores x) = some (gu + c.distance)
          rw [if_pos hxv]
        · left
          rw [hxv, ← wpAt_eq_getElem ds c.waypoint_index hvlt]
      · left
        have hx' : (if x = c.waypoint_index then some (gu + c.distance)
            else s.gScores x).isSome := hx
        rw [if_neg hxv] at hx'
        exact hx'
  · -- no improvement: the state is unchanged
    rw [if_neg himp]
    have hgv : ∃ gv, s.gScores c.waypoint_index = some gv ∧
        gv ≤ gu + c.distance := by
      rcases hmatch : s.gScores c.waypoint_index with _ | gv0
      · rw [hmatch] at himp; simp at himp
      · rw [hmatch] at himp
        refine ⟨gv0, rfl, ?_⟩
        have : ¬ (gu + c.distance < gv0) := by
          intro hlt
          exact himp (decide_eq_true hlt)
        linarith
    exact ⟨s, rfl, hcore, hgu, hgv, fun x gx h => ⟨gx, h, le_refl gx⟩,
      fun e he => he, fun x _ h => h, fun x h => Or.inl h⟩

/-- Relaxing a whole connection list of a scored in-bounds index: succeeds,
preserves the core invariants, leaves the source's g-score unchanged, closes
every listed edge, only lowers g-scores, only adds open entries, preserves
frontier-or-closed status, and gives newly scored indices frontier status. -/
theorem relaxAll_inv {d : Waypoint → Waypoint → ℚ} {ds : Dataset}
    {goal : Waypoint} {si : Nat}
    (Hnn : ∀ a b, 0 ≤ d a b)
    (Hw : ∀ wq ∈ ds.waypoints, ∀ c ∈ wq.connections,
      c.waypoint_index < ds.waypoints.length ∧
      c.distance = d wq (ds.wpAt c.waypoint_index))
    {u : Nat} {gu : ℚ} (hu : u < ds.waypoints.length) :
    ∀ (conns : List Connection) (s : AState),
      AInvCore d ds goal si s →
      s.gScores u = some gu →
      (∀ c ∈ conns, c ∈ (ds.wpAt u).connections) →
      ∃ s1, Dataset.relaxAll d ds goal u conns s = some s1 ∧
        AInvCore d ds goal si s1 ∧
        s1.gScores u = some gu ∧
        (∀ c ∈ conns, ∃ gv, s1.gScores c.waypoint_index = some gv ∧
          gv ≤ gu + c.distance) ∧
        (∀ x gx, s.gScores x = some gx →
          ∃ gx', s1.gScores x = some gx' ∧ gx' ≤ gx) ∧
        (∀ e ∈ s.openSet, e ∈ s1.openSet) ∧
        (∀ x, (s.gScores x).isSome → OpenOrClosed d ds goal s x →
          OpenOrClosed d ds goal s1 x) ∧
        (∀ x, (s1.gScores x).isSome →
          (s.gScores x).isSome ∨ OpenOrClosed d ds goal s1 x) := by
  intro conns
  induction conns with
  | nil =>
      intro s hcore hgu _
      exact ⟨s, rfl, hcore, hgu, fun c hc => absurd hc (List.not_mem_nil c),
        fun x gx h => ⟨gx, h, le_refl gx⟩, fun e he => he,
        fun x _ h => h, fun x h => Or.inl h⟩
  | cons c rest ih =>
      intro s hcore hgu hconns
      rcases relaxStep_inv Hnn Hw hcore hu hgu
        (hconns c (List.mem_cons_self c rest)) with
        ⟨s2, hs2, hcore2, hgu2, ⟨gv, hgv, hgvle⟩, hmono2, hopen2, htrans2, hnew2⟩
      rcases ih s2 hcore2 hgu2
        (fun x hx => hconns x (List.mem_cons_of_mem c hx)) with
        ⟨s1, hs1, hcore1, hgu1, hclose1, hmono1, hopen1, htrans1, hnew1⟩
      have hshape : Dataset.relaxAll d ds goal u (c :: rest) s =
          match Dataset.relaxStep d ds goal u s c with
          | none => none
          | some st => Dataset.relaxAll d ds goal u rest st := rfl
      refine ⟨s1, ?_, hcore1, hgu1, ?_, ?_, ?_, ?_, ?_⟩
      · rw [hshape, hs2]
        exact hs1
      · intro c' hc'
        rcases List.mem_cons.mp hc' with rfl | hc'
        · rcases hmono1 c'.waypoint_index gv hgv with ⟨gv', h1, h2⟩
          exact ⟨gv', h1, le_trans h2 hgvle⟩
        · exact hclose1 c' hc'
      · intro x gx hgx
        rcases hmono2 x gx hgx with ⟨g2, hg2, hle2⟩
        rcases hmono1 x g2 hg2 with ⟨g1, hg1, hle1⟩
        exact ⟨g1, hg1, le_trans hle1 hle2⟩
      · intro e he
        exact hopen1 e (hopen2 e he)
      · intro x hx hooc
        rcases Option.isSome_iff_exists.mp hx with ⟨gx, hgx⟩
        rcases hmono2 x gx hgx with ⟨g2, hg2, _⟩
        exact htrans1 x (by rw [hg2]; rfl) (htrans2 x hx hooc)
      · intro x hx
        rcases hnew1 x hx with hx2 | hooc1
        · rcases hnew2 x hx2 with hx0 | hooc2
          · exact Or.inl hx0
          · exact Or.inr (htrans1 x hx2 hooc2)
        · exact Or.inr hooc1

/-- Frontier propagation: walking any chain from a scored index whose
g-score is below the cost of an access chain, either the chain's endpoint is
already scored at most the total cost, or some open entry sits on the chain
with its g-score below its prefix cost and its f-score bounded by prefix
cost plus heuristic (or by zero, for the initial entry). -/
theorem frontier_chain {d : Waypoint → Waypoint → ℚ} {ds : Dataset}
    {goal : Waypoint} {si : Nat} {s : AState}
    (hinv : AInv d ds goal si s) :
    ∀ (cpb : List Connection) (x z : Nat) (gx : ℚ) (cpa : List Connection),
      IsChain ds x cpb z → IsChain ds si cpa x →
      s.gScores x = some gx → gx ≤ chainCost cpa →
      (∃ gz, s.gScores z = some gz ∧ gz ≤ chainCost (cpa ++ cpb)) ∨
      (∃ e ∈ s.openSet, ∃ gy cp1 cp2,
        cpa ++ cpb = cp1 ++ cp2 ∧ IsChain ds si cp1 e.2 ∧
        IsChain ds e.2 cp2 z ∧ s.gScores e.2 = some gy ∧
        gy ≤ chainCost cp1 ∧
        (e.1 ≤ chainCost cp1 + d (ds.wpAt e.2) goal ∨ e.1 ≤ 0))
  | [], x, z, gx, cpa, hchb, hcha, hgx, hle => by
      rw [show IsChain ds x [] z = (x = z) from rfl] at hchb
      subst hchb
      left
      refine ⟨gx, hgx, ?_⟩
      rw [List.append_nil]
      exact hle
  | c :: cpb, x, z, gx, cpa, hchb, hcha, hgx, hle => by
      rcases hchb with ⟨hc, hrest⟩
      rcases hinv.2 x (by rw [hgx]; rfl) with
        ⟨e, he, hex, gx', hgx', hbd⟩ | ⟨gx', hgx', hcl⟩
      · -- x still on the frontier
        right
        have hgg : gx' = gx := by
          rw [hgx] at hgx'; exact (Option.some.inj hgx').symm
        refine ⟨e, he, gx, cpa, c :: cpb, rfl, ?_, ?_, ?_, hle, ?_⟩
        · rw [hex]; exact hcha
        · rw [hex]; exact ⟨hc, hrest⟩
        · rw [hex, hgx]
        · rcases hbd with hbd | hbd
          · left
            rw [hex]
            rw [hgg] at hbd
            calc e.1 ≤ gx + d (ds.wpAt x) goal := hbd
            _ ≤ chainCost cpa + d (ds.wpAt x) goal := by
                  exact add_le_add_right hle _
          · right; exact hbd
      · -- x closed: descend one edge of the chain
        have hgg : gx' = gx := by
          rw [hgx] at hgx'; exact (Option.some.inj hgx').symm
        rcases hcl c hc with ⟨gv, hgv, hgvle⟩
        have hstep := frontier_chain hinv cpb c.waypoint_index z gv
          (cpa ++ [c]) hrest (IsChain.append hcha ⟨hc, rfl⟩) hgv
          (by
            rw [chainCost_append, chainCost, chainCost]
            rw [hgg] at hgvle
            calc gv ≤ gx + c.distance := hgvle
            _ ≤ chainCost cpa + c.distance := add_le_add_right hle _
            _ = chainCost cpa + (c.distance + 0) := by ring)
        rcases hstep with ⟨gz, hgz, hgzle⟩ | ⟨e, he, gy, cp1, cp2, hsplit,
          hch1, hch2, hgy, hgyle, hebd⟩
        · left
          refine ⟨gz, hgz, ?_⟩
          rw [List.append_assoc] at hgzle
          exact le_of_le_of_eq hgzle (by rw [List.singleton_append])
        · right
          refine ⟨e, he, gy, cp1, cp2, ?_, hch1, hch2, hgy, hgyle, hebd⟩
          rw [← hsplit, List.append_assoc, List.singleton_append]

/-- Soundness of path reconstruction: if the `came_from` walk completes,
the produced list extends the accumulator's reversal with a walk whose
reversal is the index trace of a recorded-connection chain from the start
index to the walk's origin, of cost at most the origin's g-score. -/
theorem reconstruct_sound {d : Waypoint → Waypoint → ℚ} {ds : Dataset}
    {goal : Waypoint} {si : Nat} {s : AState}
    (hcore : AInvCore d ds goal si s) :
    ∀ (fuelR : Nat) (cur : Nat) (acc q : List Nat) (gcur : ℚ),
      s.gScores cur = some gcur →
      Dataset.reconstruct s.cameFrom fuelR cur acc = some q →
      ∃ ext cp, q = (acc ++ ext).reverse ∧
        IsChain ds si cp cur ∧ chainCost cp ≤ gcur ∧
        (cur :: ext).reverse = si :: cp.map Connection.waypoint_index
  | 0, cur, acc, q, gcur, hgcur, hrec => by cases hrec
  | fuelR + 1, cur, acc, q, gcur, hgcur, hrec => by
      rw [Dataset.reconstruct] at hrec
      cases hcf : s.cameFrom cur with
      | none =>
          rw [hcf] at hrec
          have hq : q = acc.reverse := (Option.some.inj hrec).symm
          have hcur : cur = si :=
            hcore.cfRoot cur (by rw [hgcur]; rfl) hcf
          refine ⟨[], [], by rw [hq, List.append_nil], ?_, ?_, ?_⟩
          · show si = cur
            exact hcur.symm
          · rw [chainCost]
            exact hcore.nonneg cur gcur hgcur
          · rw [List.map_nil, hcur]
            rfl
      | some prev =>
          rw [hcf] at hrec
          rcases hcore.edgeInv cur prev hcf with
            ⟨c, hcmem, hcw, gprev, gcur', hgprev, hgcur', hstep⟩
          have hgg : gcur' = gcur := by
            rw [hgcur] at hgcur'; exact (Option.some.inj hgcur').symm
          rcases reconstruct_sound hcore fuelR prev (acc ++ [prev]) q gprev
            hgprev hrec with ⟨ext, cp, hq, hch, hcost, htrace⟩
          refine ⟨prev :: ext, cp ++ [c], ?_, ?_, ?_, ?_⟩
          · rw [hq, List.append_assoc, List.singleton_append]
          · exact IsChain.append hch ⟨hcmem, hcw⟩
          · rw [chainCost_append, chainCost, chainCost]
            rw [hgg] at hstep
            calc chainCost cp + (c.distance + 0) =
                chainCost cp + c.distance := by ring
            _ ≤ gprev + c.distance := add_le_add_right hcost _
            _ ≤ gcur := hstep
          · have h1 : (cur :: prev :: ext).reverse =
                (prev :: ext).reverse ++ [cur] := by
              rw [List.reverse_cons]
            rw [h1, htrace, List.map_append, List.map_cons, List.map_nil,
              hcw]
            rw [List.cons_append]

/-- Popping a minimal entry whose waypoint is not the goal and relaxing all
its connections preserves the full A* invariant. -/
theorem popRelax_inv {d : Waypoint → Waypoint → ℚ} {ds : Dataset}
    {goal : Waypoint} {si : Nat}
    (Hnn : ∀ a b, 0 ≤ d a b)
    (Hw : ∀ wq ∈ ds.waypoints, ∀ c ∈ wq.connections,
      c.waypoint_index < ds.waypoints.length ∧
      c.distance = d wq (ds.wpAt c.waypoint_index))
    {s : AState} {e : ℚ × Nat} {rest : List (ℚ × Nat)} {wu : Waypoint}
    (hinv : AInv d ds goal si s)
    (hpop : popMin s.openSet = some (e, rest))
    (hwu : ds.waypoints[e.2]? = some wu)
    (hlab : ¬ (wu.label = goal.label)) :
    ∃ s1, Dataset.relaxAll d ds goal e.2 wu.connections
        { s with openSet := rest } = some s1 ∧ AInv d ds goal si s1 := by
  rcases popMin_spec hpop with ⟨hmem, _, hrest, hcover⟩
  rcases hinv.1.wf e hmem with ⟨hlt, hgsome⟩
  rcases Option.isSome_iff_exists.mp hgsome with ⟨gu, hgu⟩
  have hwueq : wu = ds.waypoints[e.2] := by
    rw [List.getElem?_eq_getElem hlt] at hwu
    exact (Option.some.inj hwu).symm
  have hwpAt : ds.wpAt e.2 = wu := by
    rw [wpAt_eq_getElem ds e.2 hlt, hwueq]
  have hcore' : AInvCore d ds goal si { s with openSet := rest } := by
    refine ⟨?_, hinv.1.gsi, hinv.1.nonneg, hinv.1.inBounds, hinv.1.edgeInv,
      hinv.1.cfRoot, ?_, ?_⟩
    · intro e2 he2
      exact hinv.1.wf e2 (hrest e2 he2)
    · intro x hx hlabx
      rcases hinv.1.goalOpen x hx hlabx with ⟨e2, he2, hex⟩
      rcases hcover e2 he2 with heq | he2r
      · exfalso
        apply hlab
        rw [← hwpAt]
        rw [← heq, hex]
        exact hlabx
      · exact ⟨e2, he2r, hex⟩
    · intro e2 he2
      exact hinv.1.fBound e2 (hrest e2 he2)
  have hgu' : ({ s with openSet := rest } : AState).gScores e.2 = some gu :=
    hgu
  rcases relaxAll_inv Hnn Hw hlt wu.connections { s with openSet := rest }
    hcore' hgu' (fun c hc => by rw [hwpAt]; exact hc) with
    ⟨s1, hs1, hcore1, hgu1, hclose1, hmono1, hopen1, htrans1, hnew1⟩
  refine ⟨s1, hs1, hcore1, ?_⟩
  intro x hx
  rcases hnew1 x hx with hx' | hooc
  · have hxs : (s.gScores x).isSome := hx'
    rcases hinv.2 x hxs with ⟨e2, he2, hex, gx, hgx, hbd⟩ | ⟨gx, hgx, hcl⟩
    · rcases hcover e2 he2 with heq | he2r
      · -- the frontier witness was the popped entry: now fully relaxed
        right
        have hxe : x = e.2 := by rw [← hex, heq]
        refine ⟨gu, ?_, ?_⟩
        · rw [hxe]; exact hgu1
        · intro c hc
          rw [hxe, hwpAt] at hc
          exact hclose1 c hc
      · exact htrans1 x hx' (Or.inl ⟨e2, he2r, hex, gx, hgx, hbd⟩)
    · exact htrans1 x hx' (Or.inr ⟨gx, hgx, hcl⟩)
  · exact hooc

/-- Soundness and optimality of the fuelled A* loop from any state
satisfying the invariant: a returned route is the index trace of a
recorded-connection chain from start to goal of minimal cost, and the
no-route outcome certifies that no such chain exists. -/
theorem astarLoop_sound {d : Waypoint → Waypoint → ℚ} {ds : Dataset}
    {goal : Waypoint} {si : Nat}
    (Hnn : ∀ a b, 0 ≤ d a b)
    (Hrefl : ∀ a, d a a = 0)
    (Htri : ∀ a b z, d a z ≤ d a b + d b z)
    (Hw : ∀ wq ∈ ds.waypoints, ∀ c ∈ wq.connections,
      c.waypoint_index < ds.waypoints.length ∧
      c.distance = d wq (ds.wpAt c.waypoint_index))
    {gi : Nat} (hgilt : gi < ds.waypoints.length)
    (hgoal : ds.wpAt gi = goal)
    (huniq : ∀ x, x < ds.waypoints.length →
      (ds.wpAt x).label = goal.label → x = gi)
    (hsilt : si < ds.waypoints.length) :
    ∀ (fuel : Nat) (s : AState), AInv d ds goal si s →
      (∀ p, Dataset.astarLoop d ds goal fuel s = .route p →
        ∃ cp, IsChain ds si cp gi ∧
          p = si :: cp.map Connection.waypoint_index ∧
          ∀ cp', IsChain ds si cp' gi → chainCost cp ≤ chainCost cp') ∧
      (Dataset.astarLoop d ds goal fuel s = .noRoute →
        ∀ cp, ¬ IsChain ds si cp gi) := by
  intro fuel
  induction fuel with
  | zero =>
      intro s _
      constructor
      · intro p hp; cases hp
      · intro hp; cases hp
  | succ f ih =>
      intro s hinv
      cases hpop : popMin s.openSet with
      | none =>
          have hopene : s.openSet = [] := popMin_none hpop
          constructor
          · intro p hp
            rw [Dataset.astarLoop] at hp
            simp only [hpop] at hp
            cases hp
          · intro _ cp hcp
            rcases frontier_chain hinv cp si gi 0 []
              hcp (show si = si from rfl) hinv.1.gsi (le_refl 0) with
              ⟨gz, hgz, _⟩ | ⟨e, he, _⟩
            · rcases hinv.1.goalOpen gi (by rw [hgz]; rfl)
                (by rw [hgoal]) with ⟨e, he, _⟩
              rw [hopene] at he
              cases he
            · rw [hopene] at he
              cases he
      | some er =>
          rcases er with ⟨e, rest⟩
          rcases popMin_spec hpop with ⟨hmem, hmin, _, _⟩
          rcases hinv.1.wf e hmem with ⟨hlt, hgsome⟩
          rcases Option.isSome_iff_exists.mp hgsome with ⟨gg, hgu⟩
          by_cases hlab : (ds.waypoints[e.2]).label = goal.label
          · -- goal reached: reconstruct and prove optimality
            have hue : e.2 = gi := by
              apply huniq e.2 hlt
              rw [wpAt_eq_getElem ds e.2 hlt]
              exact hlab
            have hmini : ∀ cp', IsChain ds si cp' gi →
                gg ≤ chainCost cp' := by
              intro cp' hcp'
              rcases hinv.1.fBound e hmem with ⟨gb, hgb, hgble⟩
              have hgbg : gb = gg := by
                rw [hgu] at hgb; exact (Option.some.inj hgb).symm
              rcases frontier_chain hinv cp' si gi 0 []
                hcp' (show si = si from rfl) hinv.1.gsi (le_refl 0) with
                ⟨gz, hgz, hgzle⟩ | ⟨e1, he1, gy, cp1, cp2, hsplit,
                  hch1, hch2, hgy, hgyle, hebd⟩
              · have hgzg : gz = gg := by
                  rw [hue] at hgu
                  rw [hgu] at hgz
                  exact (Option.some.inj hgz).symm
                rw [List.nil_append] at hgzle
                rw [← hgzg]
                exact hgzle
              · rw [List.nil_append] at hsplit
                have hminf : e.1 ≤ e1.1 := hmin e1 he1
                have hcostsplit : chainCost cp' =
                    chainCost cp1 + chainCost cp2 := by
                  rw [hsplit, chainCost_append]
                rcases hinv.1.wf e1 he1 with ⟨hlt1, _⟩
                rcases hebd with hebd | hebd
                · rcases chain_admissible Hrefl Htri Hw cp2 e1.2 gi
                    hlt1 hch2 with ⟨_, hadm⟩
                  rw [hgoal] at hadm
                  rw [hgbg] at hgble
                  linarith
                · have hnn := chainCost_nonneg Hnn Hw cp' si gi hsilt hcp'
                  rw [hgbg] at hgble
                  linarith
            constructor
            · intro p hp
              rw [Dataset.astarLoop] at hp
              simp only [hpop, List.getElem?_eq_getElem hlt] at hp
              rw [if_pos hlab] at hp
              cases hrec : Dataset.reconstruct s.cameFrom
                  (ds.waypoints.length + 1) e.2 [e.2] with
              | none => rw [hrec] at hp; cases hp
              | some p0 =>
                  rw [hrec] at hp
                  have hp' : RouteResult.route p0 = RouteResult.route p := hp
                  have hpp : p0 = p := RouteResult.route.inj hp'
                  rcases reconstruct_sound hinv.1 (ds.waypoints.length + 1)
                    e.2 [e.2] p0 gg hgu hrec with ⟨ext, cp, hq, hch, hcost, htrace⟩
                  have hptrace : p0 = si :: cp.map Connection.waypoint_index := by
                    rw [hq, List.singleton_append]
                    exact htrace
                  rw [hue] at hch
                  refine ⟨cp, hch, by rw [← hpp, hptrace], ?_⟩
                  intro cp' hcp'
                  exact le_trans hcost (hmini cp' hcp')
            · intro hp
              rw [Dataset.astarLoop] at hp
              simp only [hpop, List.getElem?_eq_getElem hlt] at hp
              rw [if_pos hlab] at hp
              cases hrec : Dataset.reconstruct s.cameFrom
                  (ds.waypoints.length + 1) e.2 [e.2] with
              | none => rw [hrec] at hp; cases hp
              | some p0 => rw [hrec] at hp; cases hp
          · -- not the goal: relax and recurse
            have hwu : ds.waypoints[e.2]? = some (ds.waypoints[e.2]) :=
              List.getElem?_eq_getElem hlt
            rcases popRelax_inv Hnn Hw hinv hpop hwu hlab with ⟨s1, hs1, hinv1⟩
            constructor
            · intro p hp
              rw [Dataset.astarLoop] at hp
              simp only [hpop, List.getElem?_eq_getElem hlt] at hp
              rw [if_neg hlab, hs1] at hp
              exact (ih s1 hinv1).1 p hp
            · intro hp
              rw [Dataset.astarLoop] at hp
              simp only [hpop, List.getElem?_eq_getElem hlt] at hp
              rw [if_neg hlab, hs1] at hp
              exact (ih s1 hinv1).2 hp

/-- With pairwise distinct labels, an index is determined by its waypoint's
label. -/
theorem label_index_unique {ds : Dataset}
    (hnodup : (ds.waypoints.map Waypoint.label).Nodup)
    {a b : Nat} (ha : a < ds.waypoints.length) (hb : b < ds.waypoints.length)
    (h : (ds.waypoints[a]).label = (ds.waypoints[b]).label) : a = b := by
  have hma : a < (ds.waypoints.map Waypoint.label).length := by simpa using ha
  have hmb : b < (ds.waypoints.map Waypoint.label).length := by simpa using hb
  have hmap : (ds.waypoints.map Waypoint.label)[a] =
      (ds.waypoints.map Waypoint.label)[b] := by
    rw [List.getElem_map, List.getElem_map]
    exact h
  exact (List.Nodup.getElem_inj_iff hnodup).mp hmap

/-- Under distinct labels, the resolved goal index carries the goal waypoint
itself, and is the unique goal-labelled index. -/
theorem goal_index_spec {ds : Dataset} {goal : Waypoint} {gi : Nat}
    (hnodup : (ds.waypoints.map Waypoint.label).Nodup)
    (hgoalmem : goal ∈ ds.waypoints)
    (hgi : ds.get_waypoint_index goal = some gi) :
    gi < ds.waypoints.length ∧ ds.wpAt gi = goal ∧
    ∀ x, x < ds.waypoints.length → (ds.wpAt x).label = goal.label →
      x = gi := by
  rcases get_waypoint_index_spec ds goal gi hgi with ⟨hlt, hlab⟩
  rcases List.mem_iff_getElem.mp hgoalmem with ⟨j, hj, hje⟩
  have hgj : gi = j := label_index_unique hnodup hlt hj (by rw [hlab, hje])
  refine ⟨hlt, ?_, ?_⟩
  · rw [wpAt_eq_getElem ds gi hlt]
    rw [show ds.waypoints[gi] = ds.waypoints[j] from by
      congr 1]
    exact hje
  · intro x hx hlabx
    apply label_index_unique hnodup hx hlt
    rw [← wpAt_eq_getElem ds x hx, hlabx, hlab]

/-- The initial A* state of `get_shortest_route` satisfies the loop
invariant. -/
theorem initial_inv {d : Waypoint → Waypoint → ℚ} {ds : Dataset}
    {goal : Waypoint} {si : Nat} (hsilt : si < ds.waypoints.length) :
    AInv d ds goal si
      { openSet := [(0, si)], cameFrom := fun _ => none,
        gScores := fun x => if x = si then some 0 else none } := by
  constructor
  · refine ⟨?_, ?_, ?_, ?_, ?_, ?_, ?_, ?_⟩
    · intro e he
      rcases List.mem_singleton.mp he with rfl
      exact ⟨hsilt, by simp⟩
    · show (if si = si then some (0:ℚ) else none) = some 0
      rw [if_pos rfl]
    · intro u gu hgu
      have hgu' : (if u = si then some (0:ℚ) else none) = some gu := hgu
      by_cases hus : u = si
      · rw [if_pos hus] at hgu'
        rcases Option.some.inj hgu' with rfl
        exact le_refl 0
      · rw [if_neg hus] at hgu'; cases hgu'
    · intro u hu
      have hu' : (if u = si then some (0:ℚ) else none).isSome := hu
      by_cases hus : u = si
      · rw [hus]; exact hsilt
      · rw [if_neg hus] at hu'; cases hu'
    · intro v u hcf
      cases hcf
    · intro u hu _
      have hu' : (if u = si then some (0:ℚ) else none).isSome := hu
      by_cases hus : u = si
      · exact hus
      · rw [if_neg hus] at hu'; cases hu'
    · intro u hu _
      have hu' : (if u = si then some (0:ℚ) else none).isSome := hu
      by_cases hus : u = si
      · exact ⟨((0:ℚ), si), List.mem_singleton.mpr rfl, hus.symm⟩
      · rw [if_neg hus] at hu'; cases hu'
    · intro e he
      rcases List.mem_singleton.mp he with rfl
      refine ⟨0, ?_, le_refl 0⟩
      show (if si = si then some (0:ℚ) else none) = some 0
      rw [if_pos rfl]
  · intro x hx
    have hx' : (if x = si then some (0:ℚ) else none).isSome := hx
    by_cases hus : x = si
    · left
      refine ⟨((0:ℚ), si), List.mem_singleton.mpr rfl, hus.symm, 0, ?_, ?_⟩
      · show (if x = si then some (0:ℚ) else none) = some 0
        rw [if_pos hus]
      · exact Or.inr (le_refl 0)
    · rw [if_neg hus] at hx'; cases hx'

/-- **C2** (src/lib.rs lines 654-708): on a dataset with pairwise distinct
labels containing the start and goal waypoints, with non-negative edge
weights that equal the `d`-distance of their endpoints (`d` abstracting the
Haversine distance, assumed zero on identical points and satisfying the
triangle inequality — the spec's admissibility argument): whenever
`get_shortest_route` returns a route, it is an ordered list of waypoint
indices beginning at the start's index and ending at the goal's index, with
each consecutive pair linked by a recorded connection of the earlier
waypoint, and it is the index trace of a recorded-connection chain whose
summed distance is minimal over all directed recorded-connection chains
from start to goal. -/
theorem claim2_astar_optimal (d : Waypoint → Waypoint → ℚ) (ds : Dataset)
    (start goal : Waypoint)
    (Hnn : ∀ a b, 0 ≤ d a b)
    (Hrefl : ∀ a, d a a = 0)
    (Htri : ∀ a b z, d a z ≤ d a b + d b z)
    (Hw : ∀ wq ∈ ds.waypoints, ∀ c ∈ wq.connections,
      c.waypoint_index < ds.waypoints.length ∧
      c.distance = d wq (ds.wpAt c.waypoint_index))
    (hnodup : (ds.waypoints.map Waypoint.label).Nodup)
    (hstart : start ∈ ds.waypoints) (hgoalmem : goal ∈ ds.waypoints) :
    ∃ si gi, ds.get_waypoint_index start = some si ∧
      ds.get_waypoint_index goal = some gi ∧
      ∀ fuel p, Dataset.get_shortest_route d fuel ds start goal = .route p →
        p.head? = some si ∧ p.getLast? = some gi ∧
        List.Chain' (fun a b => ∃ c ∈ (ds.wpAt a).connections,
          c.waypoint_index = b) p ∧
        ∃ cp, IsChain ds si cp gi ∧
          p = si :: cp.map Connection.waypoint_index ∧
          ∀ cp', IsChain ds si cp' gi → chainCost cp ≤ chainCost cp' := by
  rcases get_waypoint_index_of_present ⟨start, hstart, rfl⟩ with ⟨si, hsi⟩
  rcases get_waypoint_index_of_present ⟨goal, hgoalmem, rfl⟩ with ⟨gi, hgi⟩
  rcases get_waypoint_index_spec ds start si hsi with ⟨hsilt, _⟩
  rcases goal_index_spec hnodup hgoalmem hgi with ⟨hgilt, hgoal, huniq⟩
  refine ⟨si, gi, hsi, hgi, ?_⟩
  intro fuel p hp
  rw [Dataset.get_shortest_route] at hp
  simp only [hsi] at hp
  rcases (astarLoop_sound Hnn Hrefl Htri Hw hgilt hgoal huniq hsilt fuel _
    (initial_inv hsilt)).1 p hp with ⟨cp, hch, hptr, hmin⟩
  refine ⟨?_, ?_, ?_, cp, hch, hptr, hmin⟩
  · rw [hptr]; rfl
  · rw [hptr]; exact chain_trace_getLast cp si gi hch
  · rw [hptr]; exact chain_trace_chain' cp si gi hch

unseal Rat.add Rat.sub Rat.mul Rat.inv in
theorem claim2_witness :
    Dataset.get_shortest_route dL1 10 dsPair wPairA wPairB = .route [0, 1] ∧
    (∃ si gi, dsPair.get_waypoint_index wPairA = some si ∧
      dsPair.get_waypoint_index wPairB = some gi ∧
      ∀ fuel p,
        Dataset.get_shortest_route dL1 fuel dsPair wPairA wPairB = .route p →
        p.head? = some si ∧ p.getLast? = some gi ∧
        List.Chain' (fun a b => ∃ c ∈ (dsPair.wpAt a).connections,
          c.waypoint_index = b) p ∧
        ∃ cp, IsChain dsPair si cp gi ∧
          p = si :: cp.map Connection.waypoint_index ∧
          ∀ cp', IsChain dsPair si cp' gi →
            chainCost cp ≤ chainCost cp') :=
  ⟨by decide,
    claim2_astar_optimal dL1 dsPair wPairA wPairB dL1_nonneg
      (fun a => dL1_self a a rfl rfl) dL1_triangle (by decide) (by decide)
      (by decide) (by decide)⟩

/-- **C3** (src/lib.rs lines 654-708): under the same hypotheses as C2, the
no-route outcome certifies that no directed path along recorded connections
leads from the start's index to the goal's index, a returned route
certifies that such a path exists, and when the start waypoint equals the
goal waypoint (equality of waypoints in the source is label equality) every
run with at least one loop iteration returns the single-element path
holding the start's index. -/
theorem claim3_no_route_outcome (d : Waypoint → Waypoint → ℚ) (ds : Dataset)
    (start goal : Waypoint)
    (Hnn : ∀ a b, 0 ≤ d a b)
    (Hrefl : ∀ a, d a a = 0)
    (Htri : ∀ a b z, d a z ≤ d a b + d b z)
    (Hw : ∀ wq ∈ ds.waypoints, ∀ c ∈ wq.connections,
      c.waypoint_index < ds.waypoints.length ∧
      c.distance = d wq (ds.wpAt c.waypoint_index))
    (hnodup : (ds.waypoints.map Waypoint.label).Nodup)
    (hstart : start ∈ ds.waypoints) (hgoalmem : goal ∈ ds.waypoints) :
    ∃ si gi, ds.get_waypoint_index start = some si ∧
      ds.get_waypoint_index goal = some gi ∧
      (∀ fuel, Dataset.get_shortest_route d fuel ds start goal = .noRoute →
        ∀ cp, ¬ IsChain ds si cp gi) ∧
      (∀ fuel p,
        Dataset.get_shortest_route d fuel ds start goal = .route p →
        ∃ cp, IsChain ds si cp gi) ∧
      (start.label = goal.label →
        ∀ fuel, Dataset.get_shortest_route d (fuel + 1) ds start goal =
          .route [si]) := by
  rcases get_waypoint_index_of_present ⟨start, hstart, rfl⟩ with ⟨si, hsi⟩
  rcases get_waypoint_index_of_present ⟨goal, hgoalmem, rfl⟩ with ⟨gi, hgi⟩
  rcases get_waypoint_index_spec ds start si hsi with ⟨hsilt, hsilab⟩
  rcases goal_index_spec hnodup hgoalmem hgi with ⟨hgilt, hgoal, huniq⟩
  refine ⟨si, gi, hsi, hgi, ?_, ?_, ?_⟩
  · intro fuel hp
    rw [Dataset.get_shortest_route] at hp
    simp only [hsi] at hp
    exact (astarLoop_sound Hnn Hrefl Htri Hw hgilt hgoal huniq hsilt fuel _
      (initial_inv hsilt)).2 hp
  · intro fuel p hp
    rw [Dataset.get_shortest_route] at hp
    simp only [hsi] at hp
    rcases (astarLoop_sound Hnn Hrefl Htri Hw hgilt hgoal huniq hsilt fuel _
      (initial_inv hsilt)).1 p hp with ⟨cp, hch, _, _⟩
    exact ⟨cp, hch⟩
  · intro hstgoal fuel
    have hpop : popMin [((0:ℚ), si)] = some ((0, si), []) := by
      rw [popMin, minEntry, removeOne, if_pos rfl]
    rw [Dataset.get_shortest_route]
    simp only [hsi]
    rw [Dataset.astarLoop]
    simp only [hpop, List.getElem?_eq_getElem hsilt]
    rw [if_pos (by rw [hsilab, hstgoal])]
    show (match Dataset.reconstruct (fun _ => none)
        (ds.waypoints.length + 1) si [si] with
      | none => RouteResult.outOfFuel
      | some p => RouteResult.route p) = RouteResult.route [si]
    rfl

unseal Rat.add Rat.sub Rat.mul Rat.inv in
theorem claim3_witness :
    Dataset.get_shortest_route dL1 5 dsPair wPairA wPairA = .route [0] ∧
    Dataset.get_shortest_route dL1 20 dsPair wPairB wPairA =
      RouteResult.noRoute ∧
    (∃ si gi, dsPair.get_waypoint_index wPairA = some si ∧
      dsPair.get_waypoint_index wPairA = some gi ∧
      (∀ fuel,
        Dataset.get_shortest_route dL1 fuel dsPair wPairA wPairA = .noRoute →
        ∀ cp, ¬ IsChain dsPair si cp gi) ∧
      (∀ fuel p,
        Dataset.get_shortest_route dL1 fuel dsPair wPairA wPairA = .route p →
        ∃ cp, IsChain dsPair si cp gi) ∧
      (wPairA.label = wPairA.label →
        ∀ fuel, Dataset.get_shortest_route dL1 (fuel + 1) dsPair wPairA
          wPairA = .route [si])) :=
  ⟨by decide, by decide,
    claim3_no_route_outcome dL1 dsPair wPairA wPairA dL1_nonneg
      (fun a => dL1_self a a rfl rfl) dL1_triangle (by decide) (by decide)
      (by decide) (by decide)⟩

end ZPath
